import Mathlib

/-!
Verification of the slabmap crate's core (`src/lib.rs`).

The container `SlabMap<T>` is embedded shallowly: the `Vec<Entry<T>>` becomes a
`List (Entry T)`, `usize` becomes `Nat` (with wraparound modulo `2 ^ 64` made
explicit at the one place the source can overflow, `key + 1` in `remove`;
Rust's release profile wraps there), and the sentinel `usize::MAX` becomes
`INVALID_INDEX`.  Fallible paths of the source (`unreachable!()`, the
out-of-bounds indexing panic in `insert_with_key`) are modelled by `Option`:
`none` is a panic.  The compaction loop `merge_vacants` is written with an
explicit fuel argument equal to the number of loop iterations the source can
make (the cursor strictly increases at every iteration, so `length + 1` fuel
always suffices); this keeps every definition executable.
-/

namespace SlabMapModel

def USIZE : Nat := 2 ^ 64

def INVALID_INDEX : Nat := USIZE - 1

/-- The three slot states of the source's `enum Entry<T>`. -/
inductive Entry (T : Type) where
  | Occupied : T → Entry T
  | VacantHead : Nat → Entry T
  | VacantTail : Nat → Entry T
  deriving DecidableEq

/-- The container state of the source's `struct SlabMap<T>`. -/
structure SlabMap (T : Type) where
  entries : List (Entry T)
  next_vacant_idx : Nat
  len : Nat
  non_optimized_count : Nat
  deriving DecidableEq

variable {T : Type}

def Entry.isOccupied : Entry T → Bool
  | .Occupied _ => true
  | _ => false

/-- `SlabMap::new` (capacity is not part of the model). -/
def SlabMap.new : SlabMap T :=
  { entries := [], next_vacant_idx := INVALID_INDEX, len := 0, non_optimized_count := 0 }

/-- `SlabMap::get`. -/
def SlabMap.get (s : SlabMap T) (key : Nat) : Option T :=
  match s.entries[key]? with
  | some (.Occupied v) => some v
  | _ => none

/-- `SlabMap::get_mut`: the mutable reference is modelled by the value it
points at; presence or absence is decided exactly as in `get`. -/
def SlabMap.get_mut (s : SlabMap T) (key : Nat) : Option T :=
  match s.entries[key]? with
  | some (.Occupied v) => some v
  | _ => none

/-- `SlabMap::contains_key`. -/
def SlabMap.contains_key (s : SlabMap T) (key : Nat) : Bool :=
  (s.get key).isSome

/-- `SlabMap::insert_with_key`.  `none` models a failure: the `unreachable!()`
arm, the out-of-bounds write `self.entries[idx + 1] = ...`, or the capacity
abort of `Vec::push`.  (Rust aborts a push no later than `isize::MAX`
elements; the model places the abort at the last representable length, the
weakest condition under which the `usize::MAX` sentinel can never collide
with a live index.) -/
def SlabMap.insert_with_key (s : SlabMap T) (f : Nat → T) : Option (Nat × SlabMap T) :=
  if s.next_vacant_idx < s.entries.length then
    let idx := s.next_vacant_idx
    match s.entries[idx]? with
    | some (.VacantHead b) =>
      if 0 < b then
        if idx + 1 < s.entries.length then
          some (idx,
            { entries := ((s.entries.set (idx + 1) (.VacantHead (b - 1))).set idx
                (.Occupied (f idx))),
              next_vacant_idx := idx + 1,
              len := s.len + 1,
              non_optimized_count := s.non_optimized_count - 1 })
        else none
      else
        some (idx,
          { entries := s.entries.set idx (.Occupied (f idx)),
            next_vacant_idx := idx + 1,
            len := s.len + 1,
            non_optimized_count := s.non_optimized_count - 1 })
    | some (.VacantTail nx) =>
      some (idx,
        { entries := s.entries.set idx (.Occupied (f idx)),
          next_vacant_idx := nx,
          len := s.len + 1,
          non_optimized_count := s.non_optimized_count - 1 })
    | some (.Occupied _) => none
    | none => none
  else
    if s.entries.length + 1 < USIZE then
      some (s.entries.length,
        { entries := s.entries ++ [.Occupied (f s.entries.length)],
          next_vacant_idx := s.next_vacant_idx,
          len := s.len + 1,
          non_optimized_count := s.non_optimized_count })
    else none

/-- `SlabMap::insert`. -/
def SlabMap.insert (s : SlabMap T) (v : T) : Option (Nat × SlabMap T) :=
  s.insert_with_key fun _ => v

/-- `SlabMap::clear` (the retained capacity is not part of the model). -/
def SlabMap.clear (_s : SlabMap T) : SlabMap T :=
  { entries := [], next_vacant_idx := INVALID_INDEX, len := 0, non_optimized_count := 0 }

/-- `SlabMap::remove`.  The source computes `key + 1` in `usize` arithmetic,
which wraps modulo `2 ^ 64`; the comparison is made with the wrapped value. -/
def SlabMap.remove (s : SlabMap T) (key : Nat) : Option T × SlabMap T :=
  let is_last := (key + 1) % USIZE == s.entries.length
  match s.entries[key]? with
  | some (.Occupied v) =>
    let s1 : SlabMap T :=
      if is_last then
        { entries := s.entries.dropLast,
          next_vacant_idx := s.next_vacant_idx,
          len := s.len - 1,
          non_optimized_count := s.non_optimized_count }
      else
        { entries := s.entries.set key (.VacantTail s.next_vacant_idx),
          next_vacant_idx := key,
          len := s.len - 1,
          non_optimized_count := s.non_optimized_count + 1 }
    (some v, if s1.len = 0 then s1.clear else s1)
  | _ => (none, s)

/-- `SlabMap::set_vacants`, acting on the loop locals of `merge_vacants`:
returns the rewritten entries, the new `next_vacant_idx` and the new
`prev_vacant_tail_idx`. -/
def set_vacants (es : List (Entry T)) (nvi vacant_head_idx vacant_end_idx : Nat)
    (prev : Option Nat) : List (Entry T) × Nat × Option Nat :=
  if vacant_end_idx ≤ vacant_head_idx then (es, nvi, prev)
  else
    let nvi1 := if nvi = INVALID_INDEX then vacant_head_idx else nvi
    let es1 := if vacant_head_idx + 2 ≤ vacant_end_idx then
        es.set vacant_head_idx (.VacantHead (vacant_end_idx - (vacant_head_idx + 2)))
      else es
    let es2 := es1.set (vacant_end_idx - 1) (.VacantTail INVALID_INDEX)
    let es3 := match prev with
      | some p => es2.set p (.VacantTail vacant_head_idx)
      | none => es2
    (es3, nvi1, some (vacant_end_idx - 1))

/-- The loop locals of `merge_vacants` at loop exit. -/
structure MergeOut (T : Type) where
  entries : List (Entry T)
  nvi : Nat
  vhi : Nat
  len : Nat
  deriving DecidableEq

/-- The `while let` loop of `SlabMap::merge_vacants`.  The cursor `idx`
strictly increases at every iteration, so `fuel := length + 1` makes the fuel
branch unreachable. -/
def mv_loop (f : Nat → T → Bool × T) :
    Nat → List (Entry T) → Nat → Nat → Option Nat → Nat → Nat → MergeOut T
  | 0, es, _, vhi, _, len, nvi => ⟨es, nvi, vhi, len⟩
  | fuel + 1, es, idx, vhi, prev, len, nvi =>
    match es[idx]? with
    | none => ⟨es, nvi, vhi, len⟩
    | some (.VacantTail _) => mv_loop f fuel es (idx + 1) vhi prev len nvi
    | some (.VacantHead b) => mv_loop f fuel es (idx + b + 2) vhi prev len nvi
    | some (.Occupied v) =>
      let kv := f idx v
      if kv.1 then
        let es1 := es.set idx (.Occupied kv.2)
        let r := set_vacants es1 nvi vhi idx prev
        mv_loop f fuel r.1 (idx + 1) (idx + 1) r.2.2 (len + 1) r.2.1
      else
        mv_loop f fuel (es.set idx (.VacantTail INVALID_INDEX)) (idx + 1) vhi prev len nvi

/-- `SlabMap::merge_vacants` (also `retain`, which is a direct call to it). -/
def SlabMap.merge_vacants (s : SlabMap T) (f : Nat → T → Bool × T) : SlabMap T :=
  let r := mv_loop f (s.entries.length + 1) s.entries 0 0 none 0 INVALID_INDEX
  { entries := r.entries.take r.vhi,
    next_vacant_idx := r.nvi,
    len := r.len,
    non_optimized_count := 0 }

/-- `SlabMap::retain`. -/
def SlabMap.retain (s : SlabMap T) (f : Nat → T → Bool × T) : SlabMap T :=
  s.merge_vacants f

/-- `SlabMap::force_optimize`. -/
def SlabMap.force_optimize (s : SlabMap T) : SlabMap T :=
  s.merge_vacants fun _ v => (true, v)

/-- `SlabMap::is_optimized`. -/
def SlabMap.is_optimized (s : SlabMap T) : Bool :=
  s.non_optimized_count == 0

/-- `SlabMap::optimize`. -/
def SlabMap.optimize (s : SlabMap T) : SlabMap T :=
  if s.is_optimized then s else s.force_optimize

/-- `SlabMap::entries_additional`; both subtractions are `usize` saturating
(`saturating_sub`, and `entries.len() - len`, which never underflows in a
reachable state). -/
def SlabMap.entries_additional (s : SlabMap T) (additional : Nat) : Nat :=
  additional - (s.entries.length - s.len)

/-- One step of the key/value loop of `SlabMap::from_iter_with_capacity`:
`resize_with(key + 1, VacantTail { INVALID_INDEX })` when needed, then
`entries[key] = Occupied(value)`. -/
def buildStep (es : List (Entry T)) (kv : Nat × T) : List (Entry T) :=
  let es1 := if kv.1 < es.length then es
    else es ++ List.replicate (kv.1 + 1 - es.length) (.VacantTail INVALID_INDEX)
  es1.set kv.1 (.Occupied kv.2)

/-- `SlabMap::from_iter_with_capacity` (the capacity argument only affects
allocation and is ignored by the model).  The source builds the raw entries,
sets `len` and `non_optimized_count` to `usize::MAX`, then calls
`force_optimize`. -/
def SlabMap.from_iter_with_capacity (l : List (Nat × T)) (_capacity : Nat) : SlabMap T :=
  SlabMap.force_optimize
    { entries := l.foldl buildStep [],
      next_vacant_idx := INVALID_INDEX,
      len := USIZE - 1,
      non_optimized_count := USIZE - 1 }

/-- The `Iter::next` loop: from `idx`, an `Occupied` slot is yielded and the
cursor advances by 1, a `VacantHead { b }` advances it by `b + 2` (`nth`),
a `VacantTail` advances it by 1.  Fuel as in `mv_loop`. -/
def iterLoop : List (Entry T) → Nat → Nat → List (Nat × T)
  | _, 0, _ => []
  | es, fuel + 1, idx =>
    match es[idx]? with
    | none => []
    | some (.Occupied v) => (idx, v) :: iterLoop es fuel (idx + 1)
    | some (.VacantHead b) => iterLoop es fuel (idx + b + 2)
    | some (.VacantTail _) => iterLoop es fuel (idx + 1)

/-- The full sequence of pairs yielded by `SlabMap::iter`. -/
def SlabMap.iterList (s : SlabMap T) : List (Nat × T) :=
  iterLoop s.entries (s.entries.length + 1) 0

/-! ## Operation traces

The operations quantified over by the property-based part of the spec.  A
`retain` carries the predicate as a function `Nat → T → Bool × T`: the `Bool`
is the predicate's verdict, the `T` the (possibly mutated) value seen through
the `&mut T` the source hands to the predicate. -/

inductive Op (T : Type) where
  | insert : T → Op T
  | remove : Nat → Op T
  | clear : Op T
  | optimize : Op T
  | retain : (Nat → T → Bool × T) → Op T
  | reserve : Nat → Op T
  | drain : Op T

/-- Effect of one operation on the container state.  `none` is a panic.
`reserve` only touches capacity, which the model does not track; `drain`
resets `len`, `next_vacant_idx` and `non_optimized_count` and empties the
entries exactly like `clear`. -/
def SlabMap.step (s : SlabMap T) : Op T → Option (SlabMap T)
  | .insert v => (s.insert v).map (·.2)
  | .remove k => some (s.remove k).2
  | .clear => some s.clear
  | .optimize => some s.optimize
  | .retain f => some (s.retain f)
  | .reserve _ => some s
  | .drain => some s.clear

/-- Run a trace from the empty container. -/
def runTrace (ops : List (Op T)) : Option (SlabMap T) :=
  ops.foldlM SlabMap.step SlabMap.new

/-! ## The reference map

A plain map from key to value, represented as an association list kept in
strictly increasing key order; this is the reference implementation of the
spec's testable-properties section. -/

/-- Plain-map update, keeping the list sorted by key. -/
def mapInsert : List (Nat × T) → Nat → T → List (Nat × T)
  | [], k, v => [(k, v)]
  | (k1, v1) :: rest, k, v =>
    if k < k1 then (k, v) :: (k1, v1) :: rest
    else if k = k1 then (k, v) :: rest
    else (k1, v1) :: mapInsert rest k v

/-- Plain-map removal. -/
def mapErase (m : List (Nat × T)) (k : Nat) : List (Nat × T) :=
  m.filter fun p => p.1 ≠ k

/-- Plain-map retain: apply the predicate to every entry in key order, keep
the mutated value when it answers true. -/
def mapRetain (m : List (Nat × T)) (f : Nat → T → Bool × T) : List (Nat × T) :=
  m.filterMap fun p => if (f p.1 p.2).1 then some (p.1, (f p.1 p.2).2) else none

/-- One lockstep step of the container and the reference map.  The key an
`insert` assigns is the one the container returns. -/
def stepBoth (p : SlabMap T × List (Nat × T)) (op : Op T) :
    Option (SlabMap T × List (Nat × T)) :=
  match op with
  | .insert v => (p.1.insert v).map fun r => (r.2, mapInsert p.2 r.1 v)
  | .remove k => some ((p.1.remove k).2, mapErase p.2 k)
  | .clear => some (p.1.clear, [])
  | .optimize => some (p.1.optimize, p.2)
  | .retain f => some (p.1.retain f, mapRetain p.2 f)
  | .reserve _ => some p
  | .drain => some (p.1.clear, [])

/-- Run a trace from the empty container alongside the reference map. -/
def runBoth (ops : List (Op T)) : Option (SlabMap T × List (Nat × T)) :=
  ops.foldlM stepBoth (SlabMap.new, [])

/-- Trace step that also records the key returned by every insert. -/
def stepKeys (p : SlabMap T × List Nat) (op : Op T) : Option (SlabMap T × List Nat) :=
  match op with
  | .insert v => (p.1.insert v).map fun r => (r.2, p.2 ++ [r.1])
  | op => (p.1.step op).map fun s1 => (s1, p.2)

/-- Run a trace from a given state, collecting the keys inserts return. -/
def runKeysFrom (s : SlabMap T) (ops : List (Op T)) : Option (SlabMap T × List Nat) :=
  ops.foldlM stepKeys (s, [])

/-! ## The occupied-slot view -/

/-- The `(key, value)` pairs of the occupied slots of an entry array, in
increasing key order, offset by `i`. -/
def occListFrom : List (Entry T) → Nat → List (Nat × T)
  | [], _ => []
  | .Occupied v :: rest, i => (i, v) :: occListFrom rest (i + 1)
  | .VacantHead _ :: rest, i => occListFrom rest (i + 1)
  | .VacantTail _ :: rest, i => occListFrom rest (i + 1)

/-- The `(key, value)` pairs of the occupied slots, in increasing key order. -/
def occList (es : List (Entry T)) : List (Nat × T) :=
  occListFrom es 0

/-- The number of occupied slots. -/
def countOcc (es : List (Entry T)) : Nat :=
  es.countP Entry.isOccupied

/-! ## The representation invariant

The free space of a reachable state decomposes into pairwise disjoint vacant
runs `(h, t)`; the free list visits each exactly once, threaded through the
`next` field of each run's terminating `VacantTail`.  The decomposition list
`rs` is kept in free-list (chain) order, which after a `remove` is not
positional. -/

/-- The slot at `i` exists and is vacant. -/
def isVacantAt (es : List (Entry T)) (i : Nat) : Bool :=
  match es[i]? with
  | some e => !e.isOccupied
  | none => false

/-- The slot at `i` exists and is occupied. -/
def isOccAt (es : List (Entry T)) (i : Nat) : Bool :=
  match es[i]? with
  | some (.Occupied _) => true
  | _ => false

/-- The slot at `t` is a `VacantTail`. -/
def isTailAt (es : List (Entry T)) (t : Nat) : Bool :=
  match es[t]? with
  | some (.VacantTail _) => true
  | _ => false

/-- The `next` field of the `VacantTail` at `t` (junk if `t` is no tail). -/
def tailNextAt (es : List (Entry T)) (t : Nat) : Nat :=
  match es[t]? with
  | some (.VacantTail nx) => nx
  | _ => 0

/-- The slot at `h` is a `VacantHead` with body length `b`. -/
def isHeadAt (es : List (Entry T)) (h b : Nat) : Bool :=
  match es[h]? with
  | some (.VacantHead b1) => b1 == b
  | _ => false

/-- A vacant run occupying slots `h..t`: every slot in the range is vacant,
the run ends in a `VacantTail`, and a run of length at least 2 starts with
`VacantHead { run_length - 2 }`.  Slots strictly inside the range carry stale
tags and are unconstrained beyond being vacant. -/
def IsRun (es : List (Entry T)) (h t : Nat) : Prop :=
  h ≤ t ∧ t < es.length ∧
  (∀ j < es.length, h ≤ j → j ≤ t → isVacantAt es j = true) ∧
  isTailAt es t = true ∧
  (h < t → isHeadAt es h (t - h - 1) = true)

/-- The runs `rs` are a decomposition of the vacant space of `es`: each is a
well-formed run, they are pairwise disjoint, and every vacant slot lies in
one of them. -/
def EntriesInv (es : List (Entry T)) (rs : List (Nat × Nat)) : Prop :=
  (∀ p ∈ rs, IsRun es p.1 p.2) ∧
  rs.Pairwise (fun p q => p.2 < q.1 ∨ q.2 < p.1) ∧
  (∀ j < es.length, (isVacantAt es j = true ↔ ∃ p ∈ rs, p.1 ≤ j ∧ j ≤ p.2))

/-- The free list starting at `nv` visits exactly the runs of `rs` in order
and terminates with the sentinel. -/
def chainFromB (es : List (Entry T)) : Nat → List (Nat × Nat) → Bool
  | nv, [] => nv == INVALID_INDEX
  | nv, p :: rest => nv == p.1 && chainFromB es (tailNextAt es p.2) rest

/-- The full representation invariant, with decomposition witness `rs`.  The
length bound is Rust's: a `Vec` never holds `usize::MAX` elements, so the
sentinel cannot collide with a live index. -/
def InvWith (s : SlabMap T) (rs : List (Nat × Nat)) : Prop :=
  EntriesInv s.entries rs ∧
  chainFromB s.entries s.next_vacant_idx rs = true ∧
  s.len = countOcc s.entries ∧
  s.entries.length < USIZE

/-- The representation invariant of reachable states. -/
def Inv (s : SlabMap T) : Prop :=
  ∃ rs, InvWith s rs

/-- Compacted form, strengthening `EntriesInv`: the runs appear in ascending
positional order, every run is maximal (its neighbours are occupied slots),
and the array does not end in a run. -/
def CanonicalWith (s : SlabMap T) (rs : List (Nat × Nat)) : Prop :=
  InvWith s rs ∧
  rs.Pairwise (fun p q => p.2 < q.1) ∧
  (∀ p ∈ rs, (p.1 = 0 ∨ isOccAt s.entries (p.1 - 1) = true) ∧
    isOccAt s.entries (p.2 + 1) = true) ∧
  (s.entries = [] ∨ isOccAt s.entries (s.entries.length - 1) = true)

/-- The free-list chain as a relation with an explicit final link, which makes
appending a run at the end compositional. -/
def chainTo (es : List (Entry T)) : Nat → List (Nat × Nat) → Nat → Prop
  | nv, [], fin => nv = fin
  | nv, p :: rest, fin => nv = p.1 ∧ chainTo es (tailNextAt es p.2) rest fin

/-! ## The compaction loop invariant

`MvInv` describes the loop state of `merge_vacants` part-way through the
walk: the prefix `[0, vhi)` is fully rebuilt (canonical runs `rsN`, in
ascending order, chained from `nvi`, every neighbour of a run a kept
occupied slot), the window `[vhi, idx)` is the open vacant run still being
grown, and the suffix from `idx` is untouched input.  `rsN` and the final
cursor are ghost data. -/

structure MvInv (f : Nat → T → Bool × T) (es0 : List (Entry T)) (rs0 : List (Nat × Nat))
    (es : List (Entry T)) (idx vhi : Nat) (prev : Option Nat) (len nvi : Nat)
    (rsN : List (Nat × Nat)) : Prop where
  hlen : es.length = es0.length
  hvhi : vhi ≤ idx
  hvhi_le : vhi ≤ es0.length
  hsuffix : ∀ j, idx ≤ j → es[j]? = es0[j]?
  haligned : ∀ p ∈ rs0, ¬(p.1 < idx ∧ idx ≤ p.2)
  hopen : ∀ j, vhi ≤ j → j < idx → j < es0.length → isVacantAt es j = true
  hlast : vhi = 0 ∨ isOccAt es (vhi - 1) = true
  hrunsN : ∀ p ∈ rsN, IsRun es p.1 p.2
  hltN : ∀ p ∈ rsN, p.2 + 1 < vhi
  hsortedN : rsN.Pairwise (fun p q => p.2 < q.1)
  hcovN : ∀ j, j < vhi → (isVacantAt es j = true ↔ ∃ p ∈ rsN, p.1 ≤ j ∧ j ≤ p.2)
  hmaxN : ∀ p ∈ rsN, (p.1 = 0 ∨ isOccAt es (p.1 - 1) = true) ∧
    isOccAt es (p.2 + 1) = true
  hchainN : chainTo es nvi rsN INVALID_INDEX
  hprevN : prev = rsN.getLast?.map (fun p => p.2)
  hlenN : len = countOcc (es.take vhi)
  hcontent : occList (es.take vhi) = mapRetain (occList (es0.take idx)) f

/-- The lockstep invariant: the container is valid and the reference map is
its occupied-slot view. -/
def Good (p : SlabMap T × List (Nat × T)) : Prop :=
  Inv p.1 ∧ p.2 = occList p.1.entries

/-! ## Decidability of the invariants, and auxiliary observers -/

instance {es : List (Entry T)} {h t : Nat} : Decidable (IsRun es h t) := by
  unfold IsRun
  exact inferInstance

instance {es : List (Entry T)} {rs : List (Nat × Nat)} : Decidable (EntriesInv es rs) := by
  unfold EntriesInv
  exact inferInstance

instance {s : SlabMap T} {rs : List (Nat × Nat)} : Decidable (InvWith s rs) := by
  unfold InvWith
  exact inferInstance

instance [DecidableEq T] {s : SlabMap T} {rs : List (Nat × Nat)} :
    Decidable (CanonicalWith s rs) := by
  unfold CanonicalWith
  exact inferInstance

/-- Trace step instrumented with the ghost counters `(removes, reuses)`: the
number of `remove` calls and the number of inserts that reused a vacant slot
(the slot-array length did not grow), both reset at every compaction (an
effective `optimize`, any `retain`) and at every clearing operation. -/
def stepCounts (p : SlabMap T × Nat × Nat) (op : Op T) :
    Option (SlabMap T × Nat × Nat) :=
  match op with
  | .insert v => (p.1.insert v).map fun r =>
      (r.2, p.2.1, p.2.2 + (if r.2.entries.length = p.1.entries.length then 1 else 0))
  | .remove k => some ((p.1.remove k).2, p.2.1 + 1, p.2.2)
  | .clear => some (p.1.clear, 0, 0)
  | .optimize => if p.1.is_optimized then some (p.1, p.2.1, p.2.2)
      else some (p.1.force_optimize, 0, 0)
  | .retain f => some (p.1.retain f, 0, 0)
  | .reserve _ => some (p.1, p.2.1, p.2.2)
  | .drain => some (p.1.clear, 0, 0)

/-- Run a trace from the empty container with the ghost counters. -/
def runCounts (ops : List (Op T)) : Option (SlabMap T × Nat × Nat) :=
  ops.foldlM stepCounts (SlabMap.new, 0, 0)

/-- Association-list lookup, the observation function of the reference map. -/
def mapLookup (m : List (Nat × T)) (k : Nat) : Option T :=
  (m.find? fun p => p.1 == k).map (·.2)

/-- The value of the last pair with key `k` in a raw key/value list. -/
def lookupLast (l : List (Nat × T)) (k : Nat) : Option T :=
  (l.reverse.find? fun p => p.1 == k).map (·.2)

/-- The reference map built from a key/value list, later pairs winning. -/
def mapOfList (l : List (Nat × T)) : List (Nat × T) :=
  l.foldl (fun m p => mapInsert m p.1 p.2) []

/-- The singleton-run decomposition of an entry array in which every vacant
slot is a bare `VacantTail` (the shape the `from_iter` build loop leaves). -/
def vtRuns (es : List (Entry T)) : List (Nat × Nat) :=
  (List.range es.length).filterMap fun j =>
    if isVacantAt es j then some (j, j) else none

/-! ## Concrete states for the worked examples -/

/-- The state `[insert 5, insert 7, remove 0, insert 9, optimize]` reaches. -/
def exPair : SlabMap Nat :=
  { entries := [Entry.Occupied 9, Entry.Occupied 7],
    next_vacant_idx := INVALID_INDEX,
    len := 2,
    non_optimized_count := 0 }

/-- The state `[insert 10, insert 11, insert 12, remove 1, remove 2]` reaches:
its slot array ends in a vacant slot. -/
def exTail : SlabMap Nat :=
  { entries := [Entry.Occupied 10, Entry.VacantTail INVALID_INDEX],
    next_vacant_idx := 1,
    len := 1,
    non_optimized_count := 1 }

/-- A compacted-form reachable state carrying `churn = 1`. -/
def exMid : SlabMap Nat :=
  { entries := [Entry.Occupied 10, Entry.VacantTail INVALID_INDEX,
      Entry.Occupied 12],
    next_vacant_idx := 1,
    len := 2,
    non_optimized_count := 1 }

/-- The state of scenario S3 after the `optimize`. -/
def exS3 : SlabMap Nat :=
  { entries := [Entry.Occupied 0, Entry.VacantHead 1, Entry.VacantTail 1,
      Entry.VacantTail INVALID_INDEX, Entry.Occupied 4],
    next_vacant_idx := 1,
    len := 2,
    non_optimized_count := 0 }

/-- A one-element container. -/
def exOne : SlabMap Nat :=
  { entries := [Entry.Occupied 5],
    next_vacant_idx := INVALID_INDEX,
    len := 1,
    non_optimized_count := 0 }

/-! ## Lemmas about the occupied-slot view -/

theorem occListFrom_append (a b : List (Entry T)) (i : Nat) :
    occListFrom (a ++ b) i = occListFrom a i ++ occListFrom b (i + a.length) := by
  induction a generalizing i with
  | nil => simp [occListFrom]
  | cons e rest ih =>
    cases e <;>
      simp [occListFrom, ih, Nat.add_assoc, Nat.add_comm 1 rest.length]

theorem occListFrom_eq_nil {es : List (Entry T)} (h : ∀ e ∈ es, e.isOccupied = false)
    (i : Nat) : occListFrom es i = [] := by
  induction es generalizing i with
  | nil => rfl
  | cons e rest ih =>
    cases e with
    | Occupied v => simpa [Entry.isOccupied] using h (.Occupied v) (by simp)
    | VacantHead b => exact ih (fun e he => h e (by simp [he])) (i + 1)
    | VacantTail nx => exact ih (fun e he => h e (by simp [he])) (i + 1)

theorem mem_occListFrom {es : List (Entry T)} {i k : Nat} {v : T} :
    (k, v) ∈ occListFrom es i ↔ ∃ j, es[j]? = some (.Occupied v) ∧ k = i + j := by
  induction es generalizing i k with
  | nil => simp [occListFrom]
  | cons e rest ih =>
    have hsplit : (∃ j, (e :: rest)[j]? = some (.Occupied v) ∧ k = i + j) ↔
        ((e = .Occupied v ∧ k = i) ∨
          (∃ j, rest[j]? = some (.Occupied v) ∧ k = (i + 1) + j)) := by
      constructor
      · rintro ⟨j, hj, hk⟩
        cases j with
        | zero => left; simp at hj; exact ⟨hj, by omega⟩
        | succ j1 => right; exact ⟨j1, by simpa using hj, by omega⟩
      · rintro (⟨he, hk⟩ | ⟨j, hj, hk⟩)
        · exact ⟨0, by simp [he], by omega⟩
        · exact ⟨j + 1, by simpa using hj, by omega⟩
    cases e with
    | Occupied w =>
      simp only [occListFrom, List.mem_cons, ih, hsplit, Prod.mk.injEq,
        Entry.Occupied.injEq]
      constructor
      · rintro (⟨hk, hv⟩ | h)
        · exact Or.inl ⟨hv.symm, hk⟩
        · exact Or.inr h
      · rintro (⟨he, hk⟩ | h)
        · exact Or.inl ⟨hk, he.symm⟩
        · exact Or.inr h
    | VacantHead b =>
      simp only [occListFrom, ih, hsplit]
      constructor
      · exact Or.inr
      · rintro (⟨he, _⟩ | h) <;> [cases he; exact h]
    | VacantTail nx =>
      simp only [occListFrom, ih, hsplit]
      constructor
      · exact Or.inr
      · rintro (⟨he, _⟩ | h) <;> [cases he; exact h]

theorem occListFrom_key_ge {es : List (Entry T)} {i : Nat} {p : Nat × T}
    (h : p ∈ occListFrom es i) : i ≤ p.1 := by
  rcases p with ⟨k, v⟩
  rcases mem_occListFrom.1 h with ⟨j, _, hk⟩
  simp only
  omega

theorem occListFrom_key_lt {es : List (Entry T)} {i : Nat} {p : Nat × T}
    (h : p ∈ occListFrom es i) : p.1 < i + es.length := by
  rcases p with ⟨k, v⟩
  rcases mem_occListFrom.1 h with ⟨j, hj, hk⟩
  rcases List.getElem?_eq_some_iff.1 hj with ⟨hlt, -⟩
  simp only
  omega

theorem occListFrom_sorted (es : List (Entry T)) (i : Nat) :
    (occListFrom es i).Pairwise (fun p q => p.1 < q.1) := by
  induction es generalizing i with
  | nil => simp [occListFrom]
  | cons e rest ih =>
    cases e with
    | Occupied w =>
      refine List.Pairwise.cons ?_ (ih (i + 1))
      intro q hq
      have := occListFrom_key_ge hq
      simp only
      omega
    | VacantHead b => exact ih (i + 1)
    | VacantTail nx => exact ih (i + 1)

theorem length_occListFrom (es : List (Entry T)) (i : Nat) :
    (occListFrom es i).length = countOcc es := by
  induction es generalizing i with
  | nil => rfl
  | cons e rest ih =>
    cases e <;> simp [occListFrom, countOcc, List.countP_cons, Entry.isOccupied, ih]

theorem occList_take_succ_vacant {es : List (Entry T)} {n : Nat}
    (hvac : isVacantAt es n = true) :
    occList (es.take (n + 1)) = occList (es.take n) := by
  unfold isVacantAt at hvac
  rcases hn : es[n]? with _ | e
  · rw [hn] at hvac; cases hvac
  · rw [occList, List.take_succ, hn, occListFrom_append, occList]
    rw [hn] at hvac
    cases e with
    | Occupied v => simp [Entry.isOccupied] at hvac
    | VacantHead b => simp [occListFrom]
    | VacantTail nx => simp [occListFrom]

theorem occList_take_succ_occ {es : List (Entry T)} {n : Nat} {v : T}
    (hocc : es[n]? = some (.Occupied v)) :
    occList (es.take (n + 1)) = occList (es.take n) ++ [(n, v)] := by
  rcases List.getElem?_eq_some_iff.1 hocc with ⟨hlt, -⟩
  rw [occList, List.take_succ, hocc, occListFrom_append, occList]
  simp [occListFrom, List.length_take, Nat.min_eq_left (Nat.le_of_lt hlt)]

theorem occList_take_of_le {es : List (Entry T)} {n : Nat} (hn : es.length ≤ n) :
    occList (es.take n) = occList es := by
  rw [List.take_of_length_le hn]

theorem isVacantAt_cons_succ {e : Entry T} {es : List (Entry T)} {k : Nat} :
    isVacantAt (e :: es) (k + 1) = isVacantAt es k := by
  simp [isVacantAt]

theorem mapInsert_of_forall_gt {m : List (Nat × T)} {k : Nat} (v : T)
    (h : ∀ p ∈ m, k < p.1) : mapInsert m k v = (k, v) :: m := by
  cases m with
  | nil => rfl
  | cons p rest =>
    rcases p with ⟨k1, v1⟩
    rw [mapInsert, if_pos (h (k1, v1) (by simp))]

theorem mapInsert_of_forall_lt {m : List (Nat × T)} {k : Nat} (v : T)
    (h : ∀ p ∈ m, p.1 < k) : mapInsert m k v = m ++ [(k, v)] := by
  induction m with
  | nil => rfl
  | cons p rest ih =>
    rcases p with ⟨k1, v1⟩
    have hp := h (k1, v1) (by simp)
    simp only at hp
    rw [mapInsert, if_neg (by omega), if_neg (by omega),
      ih (fun q hq => h q (by simp [hq]))]
    simp

theorem mapErase_of_forall_ne {m : List (Nat × T)} {k : Nat}
    (h : ∀ p ∈ m, p.1 ≠ k) : mapErase m k = m := by
  rw [mapErase, List.filter_eq_self]
  intro p hp
  simpa using h p hp

theorem mapErase_append {a b : List (Nat × T)} {k : Nat} :
    mapErase (a ++ b) k = mapErase a k ++ mapErase b k := by
  simp [mapErase, List.filter_append]

theorem mapErase_single_self {k : Nat} {v : T} :
    mapErase [(k, v)] k = [] := by
  simp [mapErase]

/-- Writing `Occupied v` into a vacant slot inserts `(k, v)` into the
occupied view, exactly as the reference map does. -/
theorem occListFrom_set_occ_of_vacant {es : List (Entry T)} {k : Nat} {v : T}
    (hvac : isVacantAt es k = true) (i : Nat) :
    occListFrom (es.set k (.Occupied v)) i = mapInsert (occListFrom es i) (i + k) v := by
  induction es generalizing i k with
  | nil => simp [isVacantAt] at hvac
  | cons e rest ih =>
    cases k with
    | zero =>
      have hhead : ∀ w, occListFrom (Entry.Occupied w :: rest) i =
          (i, w) :: occListFrom rest (i + 1) := fun _ => rfl
      have hgt : ∀ p ∈ occListFrom rest (i + 1), i < p.1 := by
        intro p hp
        have := occListFrom_key_ge hp
        omega
      cases e with
      | Occupied w => simp [isVacantAt, Entry.isOccupied] at hvac
      | VacantHead b =>
        rw [List.set_cons_zero, hhead, show occListFrom (Entry.VacantHead b :: rest) i =
          occListFrom rest (i + 1) from rfl, mapInsert_of_forall_gt v (by simpa using hgt)]
        simp
      | VacantTail nx =>
        rw [List.set_cons_zero, hhead, show occListFrom (Entry.VacantTail nx :: rest) i =
          occListFrom rest (i + 1) from rfl, mapInsert_of_forall_gt v (by simpa using hgt)]
        simp
    | succ k1 =>
      rw [isVacantAt_cons_succ] at hvac
      have harith : i + 1 + k1 = i + (k1 + 1) := by omega
      cases e with
      | Occupied w =>
        rw [List.set_cons_succ]
        show (i, w) :: occListFrom ((rest.set k1 (.Occupied v))) (i + 1) =
          mapInsert ((i, w) :: occListFrom rest (i + 1)) (i + (k1 + 1)) v
        rw [ih hvac, mapInsert, if_neg (by omega), if_neg (by omega), harith]
      | VacantHead b =>
        rw [List.set_cons_succ]
        show occListFrom ((rest.set k1 (.Occupied v))) (i + 1) =
          mapInsert (occListFrom rest (i + 1)) (i + (k1 + 1)) v
        rw [ih hvac, harith]
      | VacantTail nx =>
        rw [List.set_cons_succ]
        show occListFrom ((rest.set k1 (.Occupied v))) (i + 1) =
          mapInsert (occListFrom rest (i + 1)) (i + (k1 + 1)) v
        rw [ih hvac, harith]

/-- Overwriting an occupied slot with a vacant tag removes `(k, value)` from
the occupied view, exactly as the reference map does. -/
theorem occListFrom_set_vac_of_occ {es : List (Entry T)} {k : Nat} {w : T}
    {e1 : Entry T} (hocc : es[k]? = some (.Occupied w))
    (hvac : e1.isOccupied = false) (i : Nat) :
    occListFrom (es.set k e1) i = mapErase (occListFrom es i) (i + k) := by
  induction es generalizing i k with
  | nil => simp at hocc
  | cons e rest ih =>
    cases k with
    | zero =>
      simp only [List.getElem?_cons_zero, Option.some.injEq] at hocc
      subst hocc
      have hne : ∀ p ∈ occListFrom rest (i + 1), p.1 ≠ i := by
        intro p hp
        have := occListFrom_key_ge hp
        omega
      have htail : occListFrom (e1 :: rest) i = occListFrom rest (i + 1) := by
        cases e1 with
        | Occupied v => simp [Entry.isOccupied] at hvac
        | VacantHead b => rfl
        | VacantTail nx => rfl
      rw [List.set_cons_zero, htail,
        show occListFrom (Entry.Occupied w :: rest) i =
          (i, w) :: occListFrom rest (i + 1) from rfl]
      have h1 : mapErase ((i, w) :: occListFrom rest (i + 1)) (i + 0) =
          mapErase (occListFrom rest (i + 1)) (i + 0) := by
        rw [mapErase, mapErase, List.filter_cons, if_neg (by simp)]
      rw [h1, show i + 0 = i from rfl, mapErase_of_forall_ne hne]
    | succ k1 =>
      simp only [List.getElem?_cons_succ] at hocc
      have harith : i + 1 + k1 = i + (k1 + 1) := by omega
      cases e with
      | Occupied w1 =>
        rw [List.set_cons_succ]
        show (i, w1) :: occListFrom ((rest.set k1 e1)) (i + 1) =
          mapErase ((i, w1) :: occListFrom rest (i + 1)) (i + (k1 + 1))
        have hne1 : i ≠ i + (k1 + 1) := by omega
        have h1 : mapErase ((i, w1) :: occListFrom rest (i + 1)) (i + (k1 + 1)) =
            (i, w1) :: mapErase (occListFrom rest (i + 1)) (i + (k1 + 1)) := by
          rw [mapErase, mapErase, List.filter_cons, if_pos (by simp [hne1])]
        rw [ih hocc, h1, harith]
      | VacantHead b =>
        rw [List.set_cons_succ]
        show occListFrom ((rest.set k1 e1)) (i + 1) =
          mapErase (occListFrom rest (i + 1)) (i + (k1 + 1))
        rw [ih hocc, harith]
      | VacantTail nx =>
        rw [List.set_cons_succ]
        show occListFrom ((rest.set k1 e1)) (i + 1) =
          mapErase (occListFrom rest (i + 1)) (i + (k1 + 1))
        rw [ih hocc, harith]

/-- Rewriting a vacant slot with another vacant tag leaves the occupied view
unchanged. -/
theorem occListFrom_set_vac_of_vac {es : List (Entry T)} {k : Nat}
    {e1 : Entry T} (hvac : isVacantAt es k = true)
    (hvac1 : e1.isOccupied = false) (i : Nat) :
    occListFrom (es.set k e1) i = occListFrom es i := by
  induction es generalizing i k with
  | nil => simp [isVacantAt] at hvac
  | cons e rest ih =>
    cases k with
    | zero =>
      have htail : ∀ es1, occListFrom (e1 :: es1) i = occListFrom es1 (i + 1) := by
        intro es1
        cases e1 with
        | Occupied v => simp [Entry.isOccupied] at hvac1
        | VacantHead b => rfl
        | VacantTail nx => rfl
      cases e with
      | Occupied w => simp [isVacantAt, Entry.isOccupied] at hvac
      | VacantHead b => rw [List.set_cons_zero, htail]; rfl
      | VacantTail nx => rw [List.set_cons_zero, htail]; rfl
    | succ k1 =>
      rw [isVacantAt_cons_succ] at hvac
      cases e with
      | Occupied w =>
        rw [List.set_cons_succ]
        show (i, w) :: occListFrom ((rest.set k1 e1)) (i + 1) =
          (i, w) :: occListFrom rest (i + 1)
        rw [ih hvac]
      | VacantHead b =>
        rw [List.set_cons_succ]
        show occListFrom ((rest.set k1 e1)) (i + 1) = occListFrom rest (i + 1)
        rw [ih hvac]
      | VacantTail nx =>
        rw [List.set_cons_succ]
        show occListFrom ((rest.set k1 e1)) (i + 1) = occListFrom rest (i + 1)
        rw [ih hvac]

/-! ## Congruence and small-step helpers for the invariant -/

theorem isVacantAt_set_ne {es : List (Entry T)} {i j : Nat} {e : Entry T}
    (h : i ≠ j) : isVacantAt (es.set i e) j = isVacantAt es j := by
  simp [isVacantAt, List.getElem?_set_ne h]

theorem tailNextAt_set_ne {es : List (Entry T)} {i j : Nat} {e : Entry T}
    (h : i ≠ j) : tailNextAt (es.set i e) j = tailNextAt es j := by
  simp [tailNextAt, List.getElem?_set_ne h]

theorem IsRun_congr {es es1 : List (Entry T)} {h t : Nat}
    (hlt : t < es1.length)
    (hag : ∀ j, h ≤ j → j ≤ t → es1[j]? = es[j]?) (hr : IsRun es h t) :
    IsRun es1 h t := by
  obtain ⟨hht, htl, hvac, htail, hhead⟩ := hr
  refine ⟨hht, hlt, ?_, ?_, ?_⟩
  · intro j hj h1 h2
    rw [show isVacantAt es1 j = isVacantAt es j by
      unfold isVacantAt; rw [hag j h1 h2]]
    exact hvac j (by omega) h1 h2
  · rw [show isTailAt es1 t = isTailAt es t by
      unfold isTailAt; rw [hag t hht (Nat.le_refl t)]]
    exact htail
  · intro hlt
    rw [show isHeadAt es1 h (t - h - 1) = isHeadAt es h (t - h - 1) by
      unfold isHeadAt; rw [hag h (Nat.le_refl h) hht]]
    exact hhead hlt

theorem chainFromB_congr {es es1 : List (Entry T)} {rs : List (Nat × Nat)}
    (hag : ∀ p ∈ rs, tailNextAt es1 p.2 = tailNextAt es p.2) (nv : Nat) :
    chainFromB es1 nv rs = chainFromB es nv rs := by
  induction rs generalizing nv with
  | nil => rfl
  | cons p rest ih =>
    rw [chainFromB, chainFromB, hag p (by simp),
      ih (fun q hq => hag q (by simp [hq]))]

theorem countOcc_set {es : List (Entry T)} {k : Nat} {e : Entry T}
    (hk : k < es.length) :
    countOcc (es.set k e) =
      (countOcc es - if isOccAt es k then 1 else 0) + (if e.isOccupied then 1 else 0) := by
  rw [countOcc, countOcc, List.countP_set _ _ _ _ hk]
  have : isOccAt es k = (es[k]).isOccupied := by
    rw [isOccAt, List.getElem?_eq_getElem hk]
    cases es[k] <;> simp [Entry.isOccupied]
  rw [this]

theorem isVacantAt_true_of_isRun {es : List (Entry T)} {h t j : Nat}
    (hr : IsRun es h t) (h1 : h ≤ j) (h2 : j ≤ t) : isVacantAt es j = true := by
  obtain ⟨hht, htl, hvac, -, -⟩ := hr
  exact hvac j (by omega) h1 h2

theorem isOccAt_of_getElem {es : List (Entry T)} {k : Nat} {v : T}
    (h : es[k]? = some (.Occupied v)) : isOccAt es k = true := by
  rw [isOccAt, h]

theorem not_occ_of_vacant {es : List (Entry T)} {k : Nat}
    (h : isVacantAt es k = true) : isOccAt es k = false := by
  unfold isVacantAt at h
  unfold isOccAt
  rcases h1 : es[k]? with _ | e
  · rfl
  · rw [h1] at h
    cases e <;> simp_all [Entry.isOccupied]

theorem vacant_lt_length {es : List (Entry T)} {k : Nat}
    (h : isVacantAt es k = true) : k < es.length := by
  unfold isVacantAt at h
  rcases h1 : es[k]? with _ | e
  · rw [h1] at h; cases h
  · exact (List.getElem?_eq_some_iff.1 h1).1

theorem getElem?_of_isHeadAt {es : List (Entry T)} {h b : Nat}
    (hh : isHeadAt es h b = true) : es[h]? = some (.VacantHead b) := by
  unfold isHeadAt at hh
  rcases h1 : es[h]? with _ | e
  · rw [h1] at hh; cases hh
  · rw [h1] at hh
    cases e with
    | VacantHead b1 => simp at hh; rw [hh]
    | Occupied v => cases hh
    | VacantTail nx => cases hh

theorem getElem?_of_isTailAt {es : List (Entry T)} {t : Nat}
    (ht : isTailAt es t = true) : ∃ nx, es[t]? = some (.VacantTail nx) := by
  unfold isTailAt at ht
  rcases h1 : es[t]? with _ | e
  · rw [h1] at ht; cases ht
  · rw [h1] at ht
    cases e with
    | VacantTail nx => exact ⟨nx, rfl⟩
    | Occupied v => cases ht
    | VacantHead b => cases ht

theorem isVacantAt_set_self {es : List (Entry T)} {k : Nat} {e : Entry T}
    (hk : k < es.length) : isVacantAt (es.set k e) k = !e.isOccupied := by
  simp [isVacantAt, List.getElem?_set_self hk]

theorem isOccupied_vacantHead {b : Nat} :
    (Entry.VacantHead b : Entry T).isOccupied = false := rfl

theorem isOccupied_vacantTail {nx : Nat} :
    (Entry.VacantTail nx : Entry T).isOccupied = false := rfl

theorem tailNextAt_eq_of_getElem {es : List (Entry T)} {t nx : Nat}
    (h : es[t]? = some (.VacantTail nx)) : tailNextAt es t = nx := by
  rw [tailNextAt, h]

/-! ## Preservation of the invariant by `insert_with_key`

The reuse branch consumes the head of the free list: the decomposition loses
the head run (when it was a singleton), or keeps it shrunk by one slot. -/

theorem insert_reuse_spec {s : SlabMap T} {p : Nat × Nat} {rest : List (Nat × Nat)}
    (hinv : InvWith s (p :: rest)) (f : Nat → T) :
    ∃ s1 rs1, s.insert_with_key f = some (s.next_vacant_idx, s1) ∧ InvWith s1 rs1 ∧
      s1.entries.length = s.entries.length ∧
      occList s1.entries = mapInsert (occList s.entries) s.next_vacant_idx
        (f s.next_vacant_idx) ∧
      s1.len = s.len + 1 ∧
      s1.non_optimized_count = s.non_optimized_count - 1 ∧
      s1.entries[s.next_vacant_idx]? = some (.Occupied (f s.next_vacant_idx)) := by
  obtain ⟨⟨hruns, hpw, hcov⟩, hchain, hlen, hbound⟩ := hinv
  have hp : IsRun s.entries p.1 p.2 := hruns p (by simp)
  obtain ⟨hht, htl, hvac, htail, hhead⟩ := hp
  rw [chainFromB, Bool.and_eq_true, beq_iff_eq] at hchain
  obtain ⟨hnv, hchainrest⟩ := hchain
  have hdisj : ∀ q ∈ rest, p.2 < q.1 ∨ q.2 < p.1 := by
    have := List.pairwise_cons.1 hpw
    exact this.1
  have hpwrest : rest.Pairwise (fun p q => p.2 < q.1 ∨ q.2 < p.1) :=
    (List.pairwise_cons.1 hpw).2
  have hlt : s.next_vacant_idx < s.entries.length := by omega
  have hvach : isVacantAt s.entries p.1 = true := hvac p.1 (by omega) (Nat.le_refl _) hht
  -- facts shared by all three branches
  have hkey : s.next_vacant_idx = p.1 := hnv
  by_cases hpt : p.1 < p.2
  · -- the head run has length at least 2: its head slot is a VacantHead
    have hget : s.entries[p.1]? = some (.VacantHead (p.2 - p.1 - 1)) :=
      getElem?_of_isHeadAt (hhead hpt)
    by_cases hb : 0 < p.2 - p.1 - 1
    · -- body length positive: rewrite slot h + 1 as the new head
      have hlt1 : p.1 + 1 < s.entries.length := by omega
      refine ⟨⟨(s.entries.set (p.1 + 1) (.VacantHead (p.2 - p.1 - 1 - 1))).set p.1
          (.Occupied (f p.1)), p.1 + 1, s.len + 1, s.non_optimized_count - 1⟩,
        (p.1 + 1, p.2) :: rest, ?_, ?_, ?_, ?_, ?_, ?_, ?_⟩
      · rw [SlabMap.insert_with_key]
        rw [if_pos hlt]
        simp only [hkey, hget, if_pos hb, if_pos hlt1]
      · -- the invariant for the new state
        set es := s.entries with hes
        set es1 := (es.set (p.1 + 1) (.VacantHead (p.2 - p.1 - 1 - 1))).set p.1
          (.Occupied (f p.1)) with hes1
        have hlen1 : es1.length = es.length := by simp [hes1]
        have hag : ∀ j, p.1 + 1 ≤ j → j ≤ p.2 → es1[j]? = es[j]? ∨ j = p.1 + 1 := by
          intro j h1 h2
          by_cases hj : j = p.1 + 1
          · exact Or.inr hj
          · left
            rw [hes1, List.getElem?_set_ne (by omega), List.getElem?_set_ne (by omega)]
        have hvacnew : isVacantAt es1 (p.1 + 1) = true := by
          rw [hes1, isVacantAt_set_ne (by omega), isVacantAt_set_self (by omega)]
          rfl
        refine ⟨⟨?_, ?_, ?_⟩, ?_, ?_, ?_⟩
        · -- each run of the new decomposition is a run
          show ∀ q ∈ ((p.1 + 1, p.2) :: rest), IsRun es1 q.1 q.2
          intro q hq
          rcases List.mem_cons.1 hq with hq1 | hq1
          · -- the shrunk head run
            rw [hq1]
            refine ⟨by omega, by rw [hlen1]; omega, ?_, ?_, ?_⟩
            · intro j hj h1 h2
              by_cases hj1 : j = p.1 + 1
              · subst hj1
                exact hvacnew
              · rw [show isVacantAt es1 j = isVacantAt es j by
                  unfold isVacantAt
                  rw [hes1, List.getElem?_set_ne (by omega), List.getElem?_set_ne (by omega)]]
                exact hvac j (by omega) (by omega) h2
            · rw [show isTailAt es1 p.2 = isTailAt es p.2 by
                unfold isTailAt
                rw [hes1, List.getElem?_set_ne (by omega), List.getElem?_set_ne (by omega)]]
              exact htail
            · intro hlt2
              rw [isHeadAt]
              rw [hes1, List.getElem?_set_ne (by omega), List.getElem?_set_self (by omega)]
              simp only
              have : p.2 - (p.1 + 1) - 1 = p.2 - p.1 - 1 - 1 := by omega
              rw [this]
              simp
          · -- untouched runs
            have hq2 := hruns q (by simp [hq1])
            have hd := hdisj q hq1
            refine IsRun_congr (by rw [hlen1]; exact hq2.2.1) ?_ hq2
            intro j h1 h2
            rw [hes1, List.getElem?_set_ne (by omega), List.getElem?_set_ne (by omega)]
        · -- pairwise disjointness
          rw [List.pairwise_cons]
          refine ⟨?_, hpwrest⟩
          intro q hq
          have := hdisj q hq
          omega
        · -- coverage
          show ∀ j < es1.length,
            (isVacantAt es1 j = true ↔ ∃ q ∈ (p.1 + 1, p.2) :: rest, q.1 ≤ j ∧ j ≤ q.2)
          intro j hj
          rw [hlen1] at hj
          have hcovj := hcov j hj
          by_cases hjh : j = p.1
          · subst hjh
            rw [hes1, isVacantAt_set_self (by simp; omega)]
            simp only [Entry.isOccupied, Bool.not_true]
            constructor
            · intro h; cases h
            · rintro ⟨q, hq, h1, h2⟩
              rcases List.mem_cons.1 hq with hq1 | hq1
              · rw [hq1] at h1 h2; omega
              · have := hdisj q hq1; omega
          · by_cases hjh1 : j = p.1 + 1
            · subst hjh1
              rw [hvacnew]
              constructor
              · intro h
                exact ⟨(p.1 + 1, p.2), by simp, Nat.le_refl _, by omega⟩
              · intro h; rfl
            · rw [show isVacantAt es1 j = isVacantAt es j by
                unfold isVacantAt
                rw [hes1, List.getElem?_set_ne (by omega), List.getElem?_set_ne (by omega)]]
              rw [hcovj]
              constructor
              · rintro ⟨q, hq, h1, h2⟩
                rcases List.mem_cons.1 hq with hq1 | hq1
                · rw [hq1] at h1 h2
                  exact ⟨(p.1 + 1, p.2), by simp, by omega, by omega⟩
                · exact ⟨q, by simp [hq1], h1, h2⟩
              · rintro ⟨q, hq, h1, h2⟩
                rcases List.mem_cons.1 hq with hq1 | hq1
                · rw [hq1] at h1 h2
                  exact ⟨p, by simp, by omega, by omega⟩
                · exact ⟨q, by simp [hq1], h1, h2⟩
        · -- the chain
          show chainFromB es1 (p.1 + 1) ((p.1 + 1, p.2) :: rest) = true
          rw [chainFromB, Bool.and_eq_true, beq_iff_eq]
          refine ⟨rfl, ?_⟩
          have htn : tailNextAt es1 p.2 = tailNextAt es p.2 := by
            rw [hes1, tailNextAt_set_ne (by omega), tailNextAt_set_ne (by omega)]
          have hag : ∀ q ∈ rest, tailNextAt es1 q.2 = tailNextAt es q.2 := by
            intro q hq
            have hd := hdisj q hq
            have hqr := hruns q (by simp [hq])
            have hq12 : q.1 ≤ q.2 := hqr.1
            rw [hes1, tailNextAt_set_ne (by omega), tailNextAt_set_ne (by omega)]
          show chainFromB es1 (tailNextAt es1 p.2) rest = true
          rw [htn, chainFromB_congr hag]
          exact hchainrest
        · -- len bookkeeping
          show s.len + 1 = countOcc es1
          have h1 : countOcc (es.set (p.1 + 1) (.VacantHead (p.2 - p.1 - 1 - 1))) =
              countOcc es := by
            rw [countOcc_set (by omega)]
            rw [not_occ_of_vacant (hvac (p.1 + 1) (by omega) (by omega) (by omega))]
            simp [Entry.isOccupied]
          have h2 : countOcc es1 =
              countOcc (es.set (p.1 + 1) (.VacantHead (p.2 - p.1 - 1 - 1))) + 1 := by
            rw [hes1, countOcc_set (by simp; omega)]
            have hocc1 : isOccAt (es.set (p.1 + 1)
                (.VacantHead (p.2 - p.1 - 1 - 1))) p.1 = false := by
              rw [show isOccAt (es.set (p.1 + 1) (.VacantHead (p.2 - p.1 - 1 - 1))) p.1 =
                isOccAt es p.1 by
                unfold isOccAt; rw [List.getElem?_set_ne (by omega)]]
              exact not_occ_of_vacant hvach
            rw [hocc1]
            simp [Entry.isOccupied]
          rw [h2, h1, ← hlen]
        · -- length bound
          show es1.length < USIZE
          rw [hlen1]
          exact hbound
      · simp
      · -- occupied view
        rw [hkey]
        show occList _ = mapInsert (occList s.entries) p.1 (f p.1)
        have hvac1 : isVacantAt (s.entries.set (p.1 + 1)
            (.VacantHead (p.2 - p.1 - 1 - 1))) p.1 = true := by
          rw [isVacantAt_set_ne (by omega)]
          exact hvach
        rw [occList, occListFrom_set_occ_of_vacant hvac1, Nat.zero_add]
        rw [show occListFrom (s.entries.set (p.1 + 1) (.VacantHead (p.2 - p.1 - 1 - 1))) 0 =
          occListFrom s.entries 0 from occListFrom_set_vac_of_vac
            (hvac (p.1 + 1) (by omega) (by omega) (by omega)) isOccupied_vacantHead 0]
        rfl
      · rfl
      · rfl
      · rw [hkey]
        show ((s.entries.set (p.1 + 1) _).set p.1 _)[p.1]? = _
        rw [List.getElem?_set_self (by simp; omega)]
    · -- body length zero: the run has length exactly 2
      have ht2 : p.2 = p.1 + 1 := by omega
      refine ⟨⟨s.entries.set p.1 (.Occupied (f p.1)), p.1 + 1, s.len + 1,
          s.non_optimized_count - 1⟩,
        (p.2, p.2) :: rest, ?_, ?_, ?_, ?_, ?_, ?_, ?_⟩
      · rw [SlabMap.insert_with_key]
        rw [if_pos hlt]
        simp only [hkey, hget, if_neg hb]
      · set es := s.entries with hes
        set es1 := es.set p.1 (.Occupied (f p.1)) with hes1
        have hlen1 : es1.length = es.length := by simp [hes1]
        obtain ⟨nx, hnx⟩ := getElem?_of_isTailAt htail
        refine ⟨⟨?_, ?_, ?_⟩, ?_, ?_, ?_⟩
        · show ∀ q ∈ ((p.2, p.2) :: rest), IsRun es1 q.1 q.2
          intro q hq
          rcases List.mem_cons.1 hq with hq1 | hq1
          · rw [hq1]
            refine ⟨Nat.le_refl _, by rw [hlen1]; omega, ?_, ?_, ?_⟩
            · intro j hj h1 h2
              have hj2 : j = p.2 := by omega
              subst hj2
              rw [show isVacantAt es1 p.2 = isVacantAt es p.2 by
                unfold isVacantAt; rw [hes1, List.getElem?_set_ne (by omega)]]
              exact hvac p.2 (by omega) (by omega) (Nat.le_refl _)
            · rw [show isTailAt es1 p.2 = isTailAt es p.2 by
                unfold isTailAt; rw [hes1, List.getElem?_set_ne (by omega)]]
              exact htail
            · intro h; omega
          · have hq2 := hruns q (by simp [hq1])
            have hd := hdisj q hq1
            refine IsRun_congr (by rw [hlen1]; exact hq2.2.1) ?_ hq2
            intro j h1 h2
            rw [hes1, List.getElem?_set_ne (by omega)]
        · rw [List.pairwise_cons]
          refine ⟨?_, hpwrest⟩
          intro q hq
          have := hdisj q hq
          omega
        · show ∀ j < es1.length,
            (isVacantAt es1 j = true ↔ ∃ q ∈ (p.2, p.2) :: rest, q.1 ≤ j ∧ j ≤ q.2)
          intro j hj
          rw [hlen1] at hj
          have hcovj := hcov j hj
          by_cases hjh : j = p.1
          · subst hjh
            rw [hes1, isVacantAt_set_self (by omega)]
            simp only [Entry.isOccupied, Bool.not_true]
            constructor
            · intro h; cases h
            · rintro ⟨q, hq, h1, h2⟩
              rcases List.mem_cons.1 hq with hq1 | hq1
              · rw [hq1] at h1 h2; omega
              · have := hdisj q hq1; omega
          · rw [show isVacantAt es1 j = isVacantAt es j by
              unfold isVacantAt; rw [hes1, List.getElem?_set_ne (by omega)]]
            rw [hcovj]
            constructor
            · rintro ⟨q, hq, h1, h2⟩
              rcases List.mem_cons.1 hq with hq1 | hq1
              · rw [hq1] at h1 h2
                exact ⟨(p.2, p.2), by simp, by omega, by omega⟩
              · exact ⟨q, by simp [hq1], h1, h2⟩
            · rintro ⟨q, hq, h1, h2⟩
              rcases List.mem_cons.1 hq with hq1 | hq1
              · rw [hq1] at h1 h2
                exact ⟨p, by simp, by omega, by omega⟩
              · exact ⟨q, by simp [hq1], h1, h2⟩
        · show chainFromB es1 (p.1 + 1) ((p.2, p.2) :: rest) = true
          rw [chainFromB, Bool.and_eq_true, beq_iff_eq]
          refine ⟨by omega, ?_⟩
          have htn : tailNextAt es1 p.2 = tailNextAt es p.2 := by
            rw [hes1, tailNextAt_set_ne (by omega)]
          have hag : ∀ q ∈ rest, tailNextAt es1 q.2 = tailNextAt es q.2 := by
            intro q hq
            have hd := hdisj q hq
            have hqr := hruns q (by simp [hq])
            have hq12 : q.1 ≤ q.2 := hqr.1
            rw [hes1, tailNextAt_set_ne (by omega)]
          show chainFromB es1 (tailNextAt es1 p.2) rest = true
          rw [htn, chainFromB_congr hag]
          exact hchainrest
        · show s.len + 1 = countOcc es1
          rw [hes1, countOcc_set (by omega), not_occ_of_vacant hvach]
          simp [Entry.isOccupied, ← hlen]
        · show es1.length < USIZE
          rw [hlen1]
          exact hbound
      · simp
      · rw [hkey]
        show occList _ = mapInsert (occList s.entries) p.1 (f p.1)
        rw [occList, occListFrom_set_occ_of_vacant hvach, Nat.zero_add]
        rfl
      · rfl
      · rfl
      · rw [hkey]
        show (s.entries.set p.1 _)[p.1]? = _
        rw [List.getElem?_set_self (by omega)]
  · -- singleton run: the head slot is a VacantTail
    have hpt1 : p.1 = p.2 := by omega
    obtain ⟨nx, hnx⟩ := getElem?_of_isTailAt htail
    have hget : s.entries[p.1]? = some (.VacantTail nx) := by rw [hpt1]; exact hnx
    refine ⟨⟨s.entries.set p.1 (.Occupied (f p.1)), nx, s.len + 1,
        s.non_optimized_count - 1⟩,
      rest, ?_, ?_, ?_, ?_, ?_, ?_, ?_⟩
    · rw [SlabMap.insert_with_key]
      rw [if_pos hlt]
      simp only [hkey, hget]
    · set es := s.entries with hes
      set es1 := es.set p.1 (.Occupied (f p.1)) with hes1
      have hlen1 : es1.length = es.length := by simp [hes1]
      refine ⟨⟨?_, hpwrest, ?_⟩, ?_, ?_, ?_⟩
      · show ∀ q ∈ rest, IsRun es1 q.1 q.2
        intro q hq
        have hq2 := hruns q (by simp [hq])
        have hd := hdisj q hq
        refine IsRun_congr (by rw [hlen1]; exact hq2.2.1) ?_ hq2
        intro j h1 h2
        rw [hes1, List.getElem?_set_ne (by omega)]
      · show ∀ j < es1.length,
          (isVacantAt es1 j = true ↔ ∃ q ∈ rest, q.1 ≤ j ∧ j ≤ q.2)
        intro j hj
        rw [hlen1] at hj
        have hcovj := hcov j hj
        by_cases hjh : j = p.1
        · subst hjh
          rw [hes1, isVacantAt_set_self (by omega)]
          simp only [Entry.isOccupied, Bool.not_true]
          constructor
          · intro h; cases h
          · rintro ⟨q, hq, h1, h2⟩
            have := hdisj q hq
            omega
        · rw [show isVacantAt es1 j = isVacantAt es j by
            unfold isVacantAt; rw [hes1, List.getElem?_set_ne (by omega)]]
          rw [hcovj]
          constructor
          · rintro ⟨q, hq, h1, h2⟩
            rcases List.mem_cons.1 hq with hq1 | hq1
            · rw [hq1] at h1 h2; omega
            · exact ⟨q, hq1, h1, h2⟩
          · rintro ⟨q, hq, h1, h2⟩
            exact ⟨q, by simp [hq], h1, h2⟩
      · show chainFromB es1 nx rest = true
        have hnxeq : nx = tailNextAt es p.2 := by
          rw [tailNextAt_eq_of_getElem hnx]
        have hag : ∀ q ∈ rest, tailNextAt es1 q.2 = tailNextAt es q.2 := by
          intro q hq
          have hd := hdisj q hq
          have hqr := hruns q (by simp [hq])
          have hq12 : q.1 ≤ q.2 := hqr.1
          rw [hes1, tailNextAt_set_ne (by omega)]
        rw [hnxeq, chainFromB_congr hag]
        exact hchainrest
      · show s.len + 1 = countOcc es1
        rw [hes1, countOcc_set (by omega), not_occ_of_vacant hvach]
        simp [Entry.isOccupied, ← hlen]
      · show es1.length < USIZE
        rw [hlen1]
        exact hbound
    · simp
    · rw [hkey]
      show occList _ = mapInsert (occList s.entries) p.1 (f p.1)
      rw [occList, occListFrom_set_occ_of_vacant hvach, Nat.zero_add]
      rfl
    · rfl
    · rfl
    · rw [hkey]
      show (s.entries.set p.1 _)[p.1]? = _
      rw [List.getElem?_set_self (by omega)]

/-- With an empty free list the array holds no vacant slot at all, and
`insert_with_key` appends at the end (unless the capacity abort fires). -/
theorem insert_append_spec {s : SlabMap T} (hinv : InvWith s ([] : List (Nat × Nat)))
    (hcap : s.entries.length + 1 < USIZE) (f : Nat → T) :
    s.insert_with_key f = some (s.entries.length,
      (⟨s.entries ++ [.Occupied (f s.entries.length)], s.next_vacant_idx,
        s.len + 1, s.non_optimized_count⟩ : SlabMap T)) ∧
    InvWith (⟨s.entries ++ [.Occupied (f s.entries.length)], s.next_vacant_idx,
      s.len + 1, s.non_optimized_count⟩ : SlabMap T) ([] : List (Nat × Nat)) ∧
    occList (s.entries ++ [.Occupied (f s.entries.length)]) =
      mapInsert (occList s.entries) s.entries.length (f s.entries.length) := by
  obtain ⟨⟨hruns, hpw, hcov⟩, hchain, hlen, hbound⟩ := hinv
  have hnv : s.next_vacant_idx = INVALID_INDEX := by
    simpa [chainFromB] using hchain
  have hnlt : ¬ s.next_vacant_idx < s.entries.length := by
    rw [hnv]
    unfold INVALID_INDEX
    omega
  refine ⟨?_, ?_, ?_⟩
  · rw [SlabMap.insert_with_key, if_neg hnlt, if_pos hcap]
  · refine ⟨⟨by simp, by simp, ?_⟩, by simpa [chainFromB] using hnv, ?_, ?_⟩
    · -- no slot of the extended array is vacant
      intro j hj
      simp only [List.length_append, List.length_cons, List.length_nil] at hj
      constructor
      · intro hv
        exfalso
        by_cases hjl : j < s.entries.length
        · have := (hcov j hjl).1
          rw [show isVacantAt s.entries j = true by
            unfold isVacantAt at hv ⊢
            rwa [List.getElem?_append_left hjl] at hv] at this
          simpa using this rfl
        · have hj1 : j = s.entries.length := by omega
          unfold isVacantAt at hv
          rw [hj1, List.getElem?_concat_length] at hv
          simp [Entry.isOccupied] at hv
      · rintro ⟨q, hq, -⟩
        simp at hq
    · show s.len + 1 = countOcc (s.entries ++ [.Occupied (f s.entries.length)])
      rw [countOcc, List.countP_append]
      simp [Entry.isOccupied, countOcc] at hlen ⊢
      omega
    · simpa using hcap
  · rw [occList, occListFrom_append]
    rw [mapInsert_of_forall_lt _ (fun p hp => by simpa using occListFrom_key_lt hp)]
    simp [occListFrom]
    rfl

/-- Whenever `insert_with_key` succeeds from a state satisfying the
invariant, the invariant is re-established and the occupied view gains the
returned key, exactly as the reference map does. -/
theorem insert_step {s : SlabMap T} {rs : List (Nat × Nat)} {k : Nat}
    {s1 : SlabMap T} {f : Nat → T} (hinv : InvWith s rs)
    (hstep : s.insert_with_key f = some (k, s1)) :
    ∃ rs1, InvWith s1 rs1 ∧
      occList s1.entries = mapInsert (occList s.entries) k (f k) := by
  cases rs with
  | cons p rest =>
    obtain ⟨s2, rs1, heq, hinv1, -, hocc, -, -, -⟩ := insert_reuse_spec hinv f
    rw [heq] at hstep
    obtain ⟨hk, hs⟩ := Prod.mk.injEq _ _ _ _ ▸ Option.some.injEq _ _ ▸ hstep
    exact ⟨rs1, by rw [← hs]; exact hinv1, by rw [← hs, ← hk]; exact hocc⟩
  | nil =>
    by_cases hcap : s.entries.length + 1 < USIZE
    · obtain ⟨heq, hinv1, hocc⟩ := insert_append_spec hinv hcap f
      rw [heq] at hstep
      obtain ⟨hk, hs⟩ := Prod.mk.injEq _ _ _ _ ▸ Option.some.injEq _ _ ▸ hstep
      exact ⟨[], by rw [← hs]; exact hinv1, by rw [← hs, ← hk]; exact hocc⟩
    · exfalso
      obtain ⟨⟨hruns, hpw, hcov⟩, hchain, hlen, hbound⟩ := hinv
      have hnv : s.next_vacant_idx = INVALID_INDEX := by
        simpa [chainFromB] using hchain
      have hnlt : ¬ s.next_vacant_idx < s.entries.length := by
        rw [hnv]
        unfold INVALID_INDEX
        omega
      rw [SlabMap.insert_with_key, if_neg hnlt, if_neg hcap] at hstep
      cases hstep

/-! ## Preservation of the invariant by `remove` -/

theorem occList_mem_of_getElem {es : List (Entry T)} {k : Nat} {v : T}
    (h : es[k]? = some (.Occupied v)) : (k, v) ∈ occList es :=
  mem_occListFrom.2 ⟨k, h, (Nat.zero_add k).symm⟩

theorem occList_key_not_occ {es : List (Entry T)} {k : Nat}
    (h : isOccAt es k = false) : ∀ p ∈ occList es, p.1 ≠ k := by
  rintro ⟨k1, v1⟩ hp hk
  subst hk
  rcases mem_occListFrom.1 hp with ⟨j, hj, hkj⟩
  have : j = k1 := by omega
  subst this
  rw [isOccAt, hj] at h
  cases h

theorem countOcc_pos_of_occ {es : List (Entry T)} {k : Nat} {v : T}
    (h : es[k]? = some (.Occupied v)) : 0 < countOcc es := by
  rcases List.getElem?_eq_some_iff.1 h with ⟨hlt, hget⟩
  rw [countOcc, List.countP_pos_iff]
  exact ⟨.Occupied v, by rw [← hget]; exact List.getElem_mem hlt, rfl⟩

theorem occList_singleton {es : List (Entry T)} {k : Nat} {v : T}
    (hc : countOcc es = 1) (h : es[k]? = some (.Occupied v)) :
    occList es = [(k, v)] := by
  have hmem := occList_mem_of_getElem h
  have hlen : (occList es).length = 1 := by
    rw [occList, length_occListFrom, hc]
  rcases hl : occList es with _ | ⟨p, rest⟩
  · rw [hl] at hmem; cases hmem
  · rw [hl] at hmem hlen
    have hrest : rest = [] := by
      simp only [List.length_cons] at hlen
      exact List.eq_nil_of_length_eq_zero (by omega)
    subst hrest
    have hpk : (k, v) = p := by simpa using hmem
    rw [← hpk]

/-- `remove` preserves the invariant, and the occupied view loses `key`
exactly as the reference map does. -/
theorem remove_step {s : SlabMap T} {rs : List (Nat × Nat)}
    (hinv : InvWith s rs) (key : Nat) :
    ∃ rs1, InvWith (s.remove key).2 rs1 ∧
      occList (s.remove key).2.entries = mapErase (occList s.entries) key := by
  obtain ⟨⟨hruns, hpw, hcov⟩, hchain, hlen, hbound⟩ := hinv
  have habsent : ∀ (hgo : isOccAt s.entries key = false), (s.remove key).2 = s := by
    intro hgo
    rw [isOccAt] at hgo
    rcases h1 : s.entries[key]? with _ | e
    · simp only [SlabMap.remove, h1]
    · rw [h1] at hgo
      cases e with
      | Occupied v => cases hgo
      | VacantHead b => simp only [SlabMap.remove, h1]
      | VacantTail nx => simp only [SlabMap.remove, h1]
  rcases hget : s.entries[key]? with _ | e
  · have hgo : isOccAt s.entries key = false := by simp [isOccAt, hget]
    refine ⟨rs, ?_, ?_⟩
    · rw [habsent hgo]
      exact ⟨⟨hruns, hpw, hcov⟩, hchain, hlen, hbound⟩
    · rw [habsent hgo, mapErase_of_forall_ne (occList_key_not_occ hgo)]
  · cases e with
    | VacantHead b =>
      have hgo : isOccAt s.entries key = false := by simp [isOccAt, hget]
      refine ⟨rs, ?_, ?_⟩
      · rw [habsent hgo]
        exact ⟨⟨hruns, hpw, hcov⟩, hchain, hlen, hbound⟩
      · rw [habsent hgo, mapErase_of_forall_ne (occList_key_not_occ hgo)]
    | VacantTail nx =>
      have hgo : isOccAt s.entries key = false := by simp [isOccAt, hget]
      refine ⟨rs, ?_, ?_⟩
      · rw [habsent hgo]
        exact ⟨⟨hruns, hpw, hcov⟩, hchain, hlen, hbound⟩
      · rw [habsent hgo, mapErase_of_forall_ne (occList_key_not_occ hgo)]
    | Occupied v =>
      have hklt : key < s.entries.length := (List.getElem?_eq_some_iff.1 hget).1
      have hmod : (key + 1) % USIZE = key + 1 := Nat.mod_eq_of_lt (by omega)
      have hcpos : 0 < countOcc s.entries := countOcc_pos_of_occ hget
      have hsleno : 0 < s.len := by omega
      by_cases hlast : key + 1 = s.entries.length
      · -- remove at the end: pop one slot
        have hbeq : ((key + 1) % USIZE == s.entries.length) = true := by
          rw [hmod]
          exact beq_iff_eq.2 hlast
        have hstate : (s.remove key).2 =
            (if s.len - 1 = 0 then SlabMap.new else
              (⟨s.entries.dropLast, s.next_vacant_idx, s.len - 1,
                s.non_optimized_count⟩ : SlabMap T)) := by
          simp [SlabMap.remove, hget, hbeq, SlabMap.clear, SlabMap.new]
        have hesd : ∀ j, j < s.entries.length - 1 →
            s.entries.dropLast[j]? = s.entries[j]? := by
          intro j hj
          rw [List.getElem?_dropLast, if_pos hj]
        have hrun_lt : ∀ q ∈ rs, q.2 < s.entries.length - 1 := by
          intro q hq
          obtain ⟨h1, h2, h3, -, -⟩ := hruns q hq
          by_cases hq2 : q.2 = s.entries.length - 1
          · exfalso
            have hv := h3 q.2 (by omega) h1 (Nat.le_refl _)
            rw [show q.2 = key by omega] at hv
            rw [isVacantAt, hget] at hv
            simp [Entry.isOccupied] at hv
          · omega
        have hne : s.entries ≠ [] := by
          intro h
          rw [h] at hklt
          simp at hklt
        have hsplit : s.entries = s.entries.dropLast ++ [.Occupied v] := by
          have hlast1 : s.entries.getLast hne = .Occupied v := by
            have h2 : s.entries.getLast? = some (s.entries.getLast hne) :=
              List.getLast?_eq_getLast _ hne
            rw [List.getLast?_eq_getElem?,
              show s.entries.length - 1 = key from by omega, hget] at h2
            injection h2 with h3
            exact h3.symm
          conv_lhs => rw [← List.dropLast_append_getLast hne, hlast1]
        have hcd : countOcc s.entries.dropLast = countOcc s.entries - 1 := by
          conv_rhs => rw [hsplit]
          rw [countOcc, countOcc, List.countP_append]
          simp [Entry.isOccupied]
        have hdl : s.entries.dropLast.length = key := by
          rw [List.length_dropLast]
          omega
        have hox : occListFrom s.entries 0 =
            occListFrom s.entries.dropLast 0 ++ [(key, v)] := by
          conv_lhs => rw [hsplit]
          rw [occListFrom_append, Nat.zero_add, hdl]
          rfl
        have hoccd : occList s.entries.dropLast = mapErase (occList s.entries) key := by
          have hne1 : ∀ p ∈ occListFrom s.entries.dropLast 0, p.1 ≠ key := by
            intro p hp
            have := occListFrom_key_lt hp
            rw [hdl] at this
            simp only [Nat.zero_add] at this
            omega
          rw [occList, occList, hox, mapErase_append, mapErase_single_self,
            List.append_nil, mapErase_of_forall_ne hne1]
        rw [hstate]
        by_cases hzero : s.len - 1 = 0
        · rw [if_pos hzero]
          refine ⟨[], ⟨⟨by simp, by simp, by simp [SlabMap.new]⟩,
            by simp [SlabMap.new, chainFromB], by simp [SlabMap.new, countOcc],
            by simp [SlabMap.new, USIZE]⟩, ?_⟩
          have hone : countOcc s.entries = 1 := by omega
          rw [occList_singleton hone hget]
          simp [SlabMap.new, mapErase, occList, occListFrom]
        · rw [if_neg hzero]
          refine ⟨rs, ⟨⟨?_, hpw, ?_⟩, ?_, ?_, ?_⟩, ?_⟩
          · show ∀ q ∈ rs, IsRun s.entries.dropLast q.1 q.2
            intro q hq
            have hq2 := hrun_lt q hq
            refine IsRun_congr (by rw [List.length_dropLast]; omega) ?_ (hruns q hq)
            intro j hj1 hj2
            exact hesd j (by omega)
          · show ∀ j < s.entries.dropLast.length,
              (isVacantAt s.entries.dropLast j = true ↔ ∃ q ∈ rs, q.1 ≤ j ∧ j ≤ q.2)
            intro j hj
            rw [List.length_dropLast] at hj
            rw [show isVacantAt s.entries.dropLast j = isVacantAt s.entries j by
              unfold isVacantAt; rw [hesd j hj]]
            exact hcov j (by omega)
          · show chainFromB s.entries.dropLast s.next_vacant_idx rs = true
            have hag : ∀ q ∈ rs,
                tailNextAt s.entries.dropLast q.2 = tailNextAt s.entries q.2 := by
              intro q hq
              have := hrun_lt q hq
              unfold tailNextAt
              rw [hesd q.2 (by omega)]
            rw [chainFromB_congr hag]
            exact hchain
          · show s.len - 1 = countOcc s.entries.dropLast
            rw [hcd]
            omega
          · show s.entries.dropLast.length < USIZE
            rw [List.length_dropLast]
            omega
          · exact hoccd
      · -- remove in the middle: push a singleton run on the free list
        have hbeq : ((key + 1) % USIZE == s.entries.length) = false := by
          rw [hmod]
          simp [hlast]
        have hstate : (s.remove key).2 =
            (if s.len - 1 = 0 then SlabMap.new else
              (⟨s.entries.set key (.VacantTail s.next_vacant_idx), key, s.len - 1,
                s.non_optimized_count + 1⟩ : SlabMap T)) := by
          simp [SlabMap.remove, hget, hbeq, SlabMap.clear, SlabMap.new]
        have hnotcov : ∀ q ∈ rs, ¬(q.1 ≤ key ∧ key ≤ q.2) := by
          intro q hq hcontra
          have := (hcov key hklt).2 ⟨q, hq, hcontra.1, hcontra.2⟩
          rw [isVacantAt, hget] at this
          simp [Entry.isOccupied] at this
        set es1 := s.entries.set key (.VacantTail s.next_vacant_idx) with hes1
        have hlen1 : es1.length = s.entries.length := by simp [hes1]
        have hcd : countOcc es1 = countOcc s.entries - 1 := by
          rw [hes1, countOcc_set hklt, isOccAt_of_getElem hget]
          simp [Entry.isOccupied]
        have hoccd : occList es1 = mapErase (occList s.entries) key := by
          rw [hes1, occList, occListFrom_set_vac_of_occ hget isOccupied_vacantTail,
            Nat.zero_add]
          rfl
        rw [hstate]
        by_cases hzero : s.len - 1 = 0
        · rw [if_pos hzero]
          refine ⟨[], ⟨⟨by simp, by simp, by simp [SlabMap.new]⟩,
            by simp [SlabMap.new, chainFromB], by simp [SlabMap.new, countOcc],
            by simp [SlabMap.new, USIZE]⟩, ?_⟩
          have hone : countOcc s.entries = 1 := by omega
          rw [occList_singleton hone hget]
          simp [SlabMap.new, mapErase, occList, occListFrom]
        · rw [if_neg hzero]
          refine ⟨(key, key) :: rs, ⟨⟨?_, ?_, ?_⟩, ?_, ?_, ?_⟩, ?_⟩
          · show ∀ q ∈ (key, key) :: rs, IsRun es1 q.1 q.2
            intro q hq
            rcases List.mem_cons.1 hq with hq1 | hq1
            · rw [hq1]
              refine ⟨Nat.le_refl _, by rw [hlen1]; omega, ?_, ?_, ?_⟩
              · intro j hj h1 h2
                have : j = key := by omega
                subst this
                rw [hes1, isVacantAt_set_self hklt]
                rfl
              · rw [isTailAt, hes1, List.getElem?_set_self hklt]
              · intro h
                omega
            · have hqr := hruns q hq1
              have hnc := hnotcov q hq1
              have hq12 : q.1 ≤ q.2 := hqr.1
              refine IsRun_congr (by rw [hlen1]; exact hqr.2.1) ?_ hqr
              intro j h1 h2
              rw [hes1, List.getElem?_set_ne (by omega)]
          · rw [List.pairwise_cons]
            refine ⟨?_, hpw⟩
            intro q hq
            have := hnotcov q hq
            have hqr := hruns q hq
            have hq12 : q.1 ≤ q.2 := hqr.1
            omega
          · show ∀ j < es1.length,
              (isVacantAt es1 j = true ↔ ∃ q ∈ (key, key) :: rs, q.1 ≤ j ∧ j ≤ q.2)
            intro j hj
            rw [hlen1] at hj
            by_cases hjk : j = key
            · subst hjk
              rw [hes1, isVacantAt_set_self hklt]
              simp only [Entry.isOccupied]
              constructor
              · intro h
                exact ⟨(j, j), by simp, Nat.le_refl _, Nat.le_refl _⟩
              · intro h
                rfl
            · rw [show isVacantAt es1 j = isVacantAt s.entries j by
                unfold isVacantAt; rw [hes1, List.getElem?_set_ne (by omega)]]
              rw [hcov j hj]
              constructor
              · rintro ⟨q, hq, h1, h2⟩
                exact ⟨q, by simp [hq], h1, h2⟩
              · rintro ⟨q, hq, h1, h2⟩
                rcases List.mem_cons.1 hq with hq1 | hq1
                · rw [hq1] at h1 h2
                  omega
                · exact ⟨q, hq1, h1, h2⟩
          · show chainFromB es1 key ((key, key) :: rs) = true
            rw [chainFromB, Bool.and_eq_true, beq_iff_eq]
            refine ⟨rfl, ?_⟩
            have htn : tailNextAt es1 key = s.next_vacant_idx := by
              rw [tailNextAt, hes1, List.getElem?_set_self hklt]
            have hag : ∀ q ∈ rs, tailNextAt es1 q.2 = tailNextAt s.entries q.2 := by
              intro q hq
              have hnc := hnotcov q hq
              have hqr := hruns q hq
              have hq12 : q.1 ≤ q.2 := hqr.1
              rw [hes1, tailNextAt_set_ne (by omega)]
            show chainFromB es1 (tailNextAt es1 key) rs = true
            rw [htn, chainFromB_congr hag]
            exact hchain
          · show s.len - 1 = countOcc es1
            rw [hcd]
            omega
          · show es1.length < USIZE
            rw [hlen1]
            exact hbound
          · exact hoccd

/-! ## Helpers for the compaction proof -/

/-- Two runs of a decomposition that share a slot are the same run. -/
theorem runs_unique {rs : List (Nat × Nat)}
    (hpw : rs.Pairwise (fun p q => p.2 < q.1 ∨ q.2 < p.1)) {p q : Nat × Nat}
    (hp : p ∈ rs) (hq : q ∈ rs) {j : Nat}
    (hjp : p.1 ≤ j ∧ j ≤ p.2) (hjq : q.1 ≤ j ∧ j ≤ q.2) : p = q := by
  by_cases hpq : p = q
  · exact hpq
  · have hsym : Symmetric (fun p q : Nat × Nat => p.2 < q.1 ∨ q.2 < p.1) := by
      intro a b hab
      rcases hab with h | h
      · exact Or.inr h
      · exact Or.inl h
    have := hpw.forall hsym hp hq hpq
    rcases this with h | h <;> omega

theorem chainTo_iff_chainFromB {es : List (Entry T)} {rs : List (Nat × Nat)} {nv : Nat} :
    chainTo es nv rs INVALID_INDEX ↔ chainFromB es nv rs = true := by
  induction rs generalizing nv with
  | nil => simp [chainTo, chainFromB]
  | cons p rest ih => simp [chainTo, chainFromB, ih]

theorem chainTo_snoc {es : List (Entry T)} {rs : List (Nat × Nat)} {q : Nat × Nat}
    {nv fin : Nat} :
    chainTo es nv (rs ++ [q]) fin ↔
      chainTo es nv rs q.1 ∧ tailNextAt es q.2 = fin := by
  induction rs generalizing nv with
  | nil => simp [chainTo]
  | cons p rest ih =>
    constructor
    · rintro ⟨h1, h2⟩
      rcases ih.1 h2 with ⟨h3, h4⟩
      exact ⟨⟨h1, h3⟩, h4⟩
    · rintro ⟨⟨h1, h3⟩, h4⟩
      exact ⟨h1, ih.2 ⟨h3, h4⟩⟩

theorem chainTo_congr {es es1 : List (Entry T)} {rs : List (Nat × Nat)}
    (hag : ∀ p ∈ rs, tailNextAt es1 p.2 = tailNextAt es p.2) {nv fin : Nat}
    (h : chainTo es nv rs fin) : chainTo es1 nv rs fin := by
  induction rs generalizing nv with
  | nil => exact h
  | cons p rest ih =>
    obtain ⟨h1, h2⟩ := h
    exact ⟨h1, by
      rw [hag p (by simp)]
      exact ih (fun q hq => hag q (by simp [hq])) h2⟩

/-- Overwriting the `next` field of a `VacantTail` preserves any run. -/
theorem IsRun_set_vt {es : List (Entry T)} {h t j nx nx1 : Nat}
    (hr : IsRun es h t) (hj : es[j]? = some (.VacantTail nx)) :
    IsRun (es.set j (.VacantTail nx1)) h t := by
  obtain ⟨hht, htl, hvac, htail, hhead⟩ := hr
  refine ⟨hht, by simpa using htl, ?_, ?_, ?_⟩
  · intro k hk h1 h2
    by_cases hkj : k = j
    · subst hkj
      rw [isVacantAt_set_self (List.getElem?_eq_some_iff.1 hj).1]
      rfl
    · rw [isVacantAt_set_ne (fun hh => hkj hh.symm)]
      exact hvac k (by simpa using hk) h1 h2
  · by_cases htj : t = j
    · subst htj
      rw [isTailAt, List.getElem?_set_self (List.getElem?_eq_some_iff.1 hj).1]
    · rw [show isTailAt (es.set j (.VacantTail nx1)) t = isTailAt es t by
        unfold isTailAt; rw [List.getElem?_set_ne (fun hh => htj hh.symm)]]
      exact htail
  · intro hlt
    have hne : j ≠ h := by
      intro hh
      subst hh
      have := hhead hlt
      rw [isHeadAt, hj] at this
      cases this
    rw [show isHeadAt (es.set j (.VacantTail nx1)) h (t - h - 1) = isHeadAt es h (t - h - 1) by
      unfold isHeadAt; rw [List.getElem?_set_ne hne]]
    exact hhead hlt

theorem take_set_ge {es : List (Entry T)} {k m : Nat} {e : Entry T} (h : m ≤ k) :
    (es.set k e).take m = es.take m := by
  rw [List.set_take]
  exact List.set_eq_of_length_le (by rw [List.length_take]; omega)

/-- Setting a vacant slot to another vacant tag does not change the occupied
view of any prefix. -/
theorem occList_take_set_vacant {es : List (Entry T)} {k m : Nat} {e1 : Entry T}
    (hvac : isVacantAt es k = true) (hv1 : e1.isOccupied = false) :
    occList ((es.set k e1).take m) = occList (es.take m) := by
  by_cases hkm : k < m
  · rw [List.set_take]
    have hvk : isVacantAt (es.take m) k = true := by
      unfold isVacantAt at hvac ⊢
      rw [List.getElem?_take, if_pos hkm]
      exact hvac
    rw [occList, occListFrom_set_vac_of_vac hvk hv1]
    rfl
  · rw [take_set_ge (by omega)]

/-- Extending a prefix across vacant slots does not change the occupied view. -/
theorem occList_take_add_vacant {es : List (Entry T)} {idx : Nat} : ∀ m : Nat,
    (∀ j, idx ≤ j → j < idx + m → isVacantAt es j = true) →
    occList (es.take (idx + m)) = occList (es.take idx)
  | 0, _ => rfl
  | m + 1, h => by
    rw [show idx + (m + 1) = (idx + m) + 1 from rfl]
    by_cases hlt : idx + m < es.length
    · rw [occList_take_succ_vacant (h (idx + m) (by omega) (by omega))]
      exact occList_take_add_vacant m (fun j h1 h2 => h j h1 (by omega))
    · have h1 : es.take ((idx + m) + 1) = es.take (idx + m) := by
        rw [List.take_of_length_le (by omega), List.take_of_length_le (by omega)]
      rw [h1]
      exact occList_take_add_vacant m (fun j h1 h2 => h j h1 (by omega))

theorem mapRetain_append {a b : List (Nat × T)} {f : Nat → T → Bool × T} :
    mapRetain (a ++ b) f = mapRetain a f ++ mapRetain b f := by
  simp [mapRetain, List.filterMap_append]

theorem mapRetain_single_true {k : Nat} {v : T} {f : Nat → T → Bool × T}
    (h : (f k v).1 = true) : mapRetain [(k, v)] f = [(k, (f k v).2)] := by
  simp [mapRetain, h]

theorem mapRetain_single_false {k : Nat} {v : T} {f : Nat → T → Bool × T}
    (h : (f k v).1 = false) : mapRetain [(k, v)] f = [] := by
  simp [mapRetain, h]

theorem countOcc_take_eq_occList_length {es : List (Entry T)} {m : Nat} :
    countOcc (es.take m) = (occList (es.take m)).length := by
  rw [occList, length_occListFrom]

/-- The initial loop state satisfies the invariant. -/
theorem MvInv.start (f : Nat → T → Bool × T) (es0 : List (Entry T))
    (rs0 : List (Nat × Nat)) :
    MvInv f es0 rs0 es0 0 0 none 0 INVALID_INDEX [] where
  hlen := rfl
  hvhi := Nat.le_refl _
  hvhi_le := Nat.zero_le _
  hsuffix := fun _ _ => rfl
  haligned := fun p _ h => by omega
  hopen := fun j h1 h2 => by omega
  hlast := Or.inl rfl
  hrunsN := fun p hp => by cases hp
  hltN := fun p hp => by cases hp
  hsortedN := List.Pairwise.nil
  hcovN := fun j hj => by omega
  hmaxN := fun p hp => by cases hp
  hchainN := rfl
  hprevN := rfl
  hlenN := rfl
  hcontent := rfl

/-- One fact used over and over: a covered slot whose run is aligned at `idx`
identifies that run's head with `idx`. -/
theorem aligned_head {es0 : List (Entry T)} {rs0 : List (Nat × Nat)}
    (hinv0 : EntriesInv es0 rs0) {idx : Nat}
    (haligned : ∀ p ∈ rs0, ¬(p.1 < idx ∧ idx ≤ p.2))
    (hvac : isVacantAt es0 idx = true) (hidx : idx < es0.length) :
    ∃ p ∈ rs0, p.1 = idx ∧ idx ≤ p.2 := by
  obtain ⟨hruns0, hpw0, hcov0⟩ := hinv0
  obtain ⟨p, hp, h1, h2⟩ := (hcov0 idx hidx).1 hvac
  exact ⟨p, hp, by have := haligned p hp; omega, h2⟩

/-- A slot occupied in the input is not covered by any input run. -/
theorem occ_not_covered {es0 : List (Entry T)} {rs0 : List (Nat × Nat)}
    (hinv0 : EntriesInv es0 rs0) {idx : Nat} {v : T}
    (hocc : es0[idx]? = some (.Occupied v)) :
    ∀ q ∈ rs0, ¬(q.1 ≤ idx ∧ idx ≤ q.2) := by
  obtain ⟨hruns0, hpw0, hcov0⟩ := hinv0
  intro q hq hcontra
  have hidx : idx < es0.length := (List.getElem?_eq_some_iff.1 hocc).1
  have := (hcov0 idx hidx).2 ⟨q, hq, hcontra.1, hcontra.2⟩
  rw [isVacantAt, hocc] at this
  simp [Entry.isOccupied] at this

/-- Walking over a singleton `VacantTail` run. -/
theorem MvInv.vt_step {f : Nat → T → Bool × T} {es0 es : List (Entry T)}
    {rs0 rsN : List (Nat × Nat)} {idx vhi len nvi : Nat} {prev : Option Nat} {nx : Nat}
    (hinv0 : EntriesInv es0 rs0)
    (hmv : MvInv f es0 rs0 es idx vhi prev len nvi rsN)
    (hidx : es[idx]? = some (.VacantTail nx)) :
    MvInv f es0 rs0 es (idx + 1) vhi prev len nvi rsN := by
  obtain ⟨hlen, hvhi, hvhi_le, hsuffix, haligned, hopen, hlast, hrunsN, hltN, hsortedN,
    hcovN, hmaxN, hchainN, hprevN, hlenN, hcontent⟩ := hmv
  have hidx0 : es0[idx]? = some (.VacantTail nx) := by
    rw [← hsuffix idx (Nat.le_refl _)]
    exact hidx
  have hlt : idx < es0.length := (List.getElem?_eq_some_iff.1 hidx0).1
  have hvac0 : isVacantAt es0 idx = true := by rw [isVacantAt, hidx0]; rfl
  obtain ⟨p, hp, hp1, hp2⟩ := aligned_head hinv0 haligned hvac0 hlt
  obtain ⟨hruns0, hpw0, hcov0⟩ := hinv0
  have hpr := hruns0 p hp
  have hpt : p.2 = idx := by
    by_cases h : p.1 < p.2
    · exfalso
      have h2 := hpr.2.2.2.2 h
      rw [hp1] at h2
      simp [isHeadAt, hidx0] at h2
    · omega
  refine ⟨hlen, by omega, hvhi_le, fun j hj => hsuffix j (by omega), ?_, ?_, hlast,
    hrunsN, hltN, hsortedN, hcovN, hmaxN, hchainN, hprevN, hlenN, ?_⟩
  · intro q hq hcontra
    have hqcov : q.1 ≤ idx ∧ idx ≤ q.2 := by omega
    have hpcov : p.1 ≤ idx ∧ idx ≤ p.2 := by omega
    have := runs_unique hpw0 hq hp hqcov hpcov
    subst this
    omega
  · intro j h1 h2 h3
    by_cases hji : j = idx
    · subst hji
      rw [isVacantAt, hidx]
      rfl
    · exact hopen j h1 (by omega) h3
  · rw [hcontent, occList_take_succ_vacant hvac0]

/-- Skipping a `VacantHead` run in one jump. -/
theorem MvInv.vh_step {f : Nat → T → Bool × T} {es0 es : List (Entry T)}
    {rs0 rsN : List (Nat × Nat)} {idx vhi len nvi : Nat} {prev : Option Nat} {b : Nat}
    (hinv0 : EntriesInv es0 rs0)
    (hmv : MvInv f es0 rs0 es idx vhi prev len nvi rsN)
    (hidx : es[idx]? = some (.VacantHead b)) :
    MvInv f es0 rs0 es (idx + b + 2) vhi prev len nvi rsN := by
  obtain ⟨hlen, hvhi, hvhi_le, hsuffix, haligned, hopen, hlast, hrunsN, hltN, hsortedN,
    hcovN, hmaxN, hchainN, hprevN, hlenN, hcontent⟩ := hmv
  have hidx0 : es0[idx]? = some (.VacantHead b) := by
    rw [← hsuffix idx (Nat.le_refl _)]
    exact hidx
  have hlt : idx < es0.length := (List.getElem?_eq_some_iff.1 hidx0).1
  have hvac0 : isVacantAt es0 idx = true := by rw [isVacantAt, hidx0]; rfl
  obtain ⟨p, hp, hp1, hp2⟩ := aligned_head hinv0 haligned hvac0 hlt
  obtain ⟨hruns0, hpw0, hcov0⟩ := hinv0
  have hpr := hruns0 p hp
  have hplt : p.1 < p.2 := by
    by_cases h : p.1 < p.2
    · exact h
    · exfalso
      have hp2idx : p.2 = idx := by omega
      obtain ⟨-, -, -, htail, -⟩ := hpr
      rw [hp2idx] at htail
      simp [isTailAt, hidx0] at htail
  have hbody : b = p.2 - p.1 - 1 := by
    have h2 := hpr.2.2.2.2 hplt
    rw [hp1] at h2
    simp [isHeadAt, hidx0] at h2
    omega
  have hjump : idx + b + 2 = p.2 + 1 := by omega
  have hvacrange : ∀ j, idx ≤ j → j < idx + (b + 2) → isVacantAt es0 j = true := by
    intro j h1 h2
    exact isVacantAt_true_of_isRun hpr (by omega) (by omega)
  refine ⟨hlen, by omega, hvhi_le, fun j hj => hsuffix j (by omega), ?_, ?_, hlast,
    hrunsN, hltN, hsortedN, hcovN, hmaxN, hchainN, hprevN, hlenN, ?_⟩
  · intro q hq hcontra
    have hqcov : q.1 ≤ p.2 ∧ p.2 ≤ q.2 := by omega
    have hpcov : p.1 ≤ p.2 ∧ p.2 ≤ p.2 := by omega
    have := runs_unique hpw0 hq hp hqcov hpcov
    subst this
    omega
  · intro j h1 h2 h3
    by_cases hji : j < idx
    · exact hopen j h1 hji h3
    · rw [show isVacantAt es j = isVacantAt es0 j by
        unfold isVacantAt; rw [hsuffix j (by omega)]]
      exact hvacrange j (by omega) (by omega)
  · rw [hcontent, show idx + b + 2 = idx + (b + 2) from rfl,
      occList_take_add_vacant (b + 2) hvacrange]

/-- Dropping an occupied slot: overwrite with a singleton `VacantTail` and
let the open run grow over it. -/
theorem MvInv.drop_step {f : Nat → T → Bool × T} {es0 es : List (Entry T)}
    {rs0 rsN : List (Nat × Nat)} {idx vhi len nvi : Nat} {prev : Option Nat} {v : T}
    (hinv0 : EntriesInv es0 rs0)
    (hmv : MvInv f es0 rs0 es idx vhi prev len nvi rsN)
    (hidx : es[idx]? = some (.Occupied v)) (hkeep : (f idx v).1 = false) :
    MvInv f es0 rs0 (es.set idx (.VacantTail INVALID_INDEX)) (idx + 1) vhi prev len
      nvi rsN := by
  obtain ⟨hlen, hvhi, hvhi_le, hsuffix, haligned, hopen, hlast, hrunsN, hltN, hsortedN,
    hcovN, hmaxN, hchainN, hprevN, hlenN, hcontent⟩ := hmv
  have hidx0 : es0[idx]? = some (.Occupied v) := by
    rw [← hsuffix idx (Nat.le_refl _)]
    exact hidx
  have hlt : idx < es0.length := (List.getElem?_eq_some_iff.1 hidx0).1
  have hnc := occ_not_covered hinv0 hidx0
  have hagne : ∀ j, j ≠ idx →
      (es.set idx (.VacantTail INVALID_INDEX))[j]? = es[j]? := by
    intro j hj
    rw [List.getElem?_set_ne (fun hh => hj hh.symm)]
  have hvacne : ∀ j, j ≠ idx →
      isVacantAt (es.set idx (.VacantTail INVALID_INDEX)) j = isVacantAt es j := by
    intro j hj
    unfold isVacantAt
    rw [hagne j hj]
  have hoccne : ∀ j, j ≠ idx →
      isOccAt (es.set idx (.VacantTail INVALID_INDEX)) j = isOccAt es j := by
    intro j hj
    unfold isOccAt
    rw [hagne j hj]
  refine ⟨by simpa using hlen, by omega, hvhi_le, ?_, ?_, ?_, ?_, ?_, hltN, hsortedN,
    ?_, ?_, ?_, hprevN, ?_, ?_⟩
  · intro j hj
    rw [hagne j (by omega), hsuffix j (by omega)]
  · intro q hq hcontra
    exact hnc q hq ⟨by omega, by omega⟩
  · intro j h1 h2 h3
    by_cases hji : j = idx
    · subst hji
      rw [isVacantAt_set_self (by rw [hlen]; exact hlt)]
      rfl
    · rw [hvacne j hji]
      exact hopen j h1 (by omega) h3
  · by_cases hv0 : vhi = 0
    · exact Or.inl hv0
    · rcases hlast with h | h
      · exact Or.inl h
      · exact Or.inr (by rw [hoccne (vhi - 1) (by omega)]; exact h)
  · intro p hp
    have hplt := hltN p hp
    refine IsRun_congr (by simpa [hlen] using (hrunsN p hp).2.1) ?_ (hrunsN p hp)
    intro j h1 h2
    exact hagne j (by omega)
  · intro j hj
    rw [hvacne j (by omega)]
    exact hcovN j hj
  · intro p hp
    have hplt := hltN p hp
    have hp12 : p.1 ≤ p.2 := (hrunsN p hp).1
    have h1 := hmaxN p hp
    refine ⟨?_, ?_⟩
    · rcases h1.1 with h | h
      · exact Or.inl h
      · exact Or.inr (by rw [hoccne (p.1 - 1) (by omega)]; exact h)
    · rw [hoccne (p.2 + 1) (by omega)]
      exact h1.2
  · refine chainTo_congr ?_ hchainN
    intro p hp
    have hplt := hltN p hp
    unfold tailNextAt
    rw [hagne p.2 (by omega)]
  · rw [take_set_ge hvhi]
    exact hlenN
  · rw [take_set_ge hvhi, hcontent, occList_take_succ_occ hidx0, mapRetain_append,
      mapRetain_single_false hkeep, List.append_nil]

/-- Keeping an occupied slot when the open run is empty (`vhi = idx`):
`set_vacants` is a no-op and the kept slot extends the canonical prefix. -/
theorem MvInv.keep_eq_step {f : Nat → T → Bool × T} {es0 es : List (Entry T)}
    {rs0 rsN : List (Nat × Nat)} {idx len nvi : Nat} {prev : Option Nat} {v : T}
    (hinv0 : EntriesInv es0 rs0)
    (hmv : MvInv f es0 rs0 es idx idx prev len nvi rsN)
    (hidx : es[idx]? = some (.Occupied v)) (hkeep : (f idx v).1 = true) :
    MvInv f es0 rs0 (es.set idx (.Occupied (f idx v).2)) (idx + 1) (idx + 1) prev
      (len + 1) nvi rsN := by
  obtain ⟨hlen, hvhi, hvhi_le, hsuffix, haligned, hopen, hlast, hrunsN, hltN, hsortedN,
    hcovN, hmaxN, hchainN, hprevN, hlenN, hcontent⟩ := hmv
  have hidx0 : es0[idx]? = some (.Occupied v) := by
    rw [← hsuffix idx (Nat.le_refl _)]
    exact hidx
  have hlt : idx < es0.length := (List.getElem?_eq_some_iff.1 hidx0).1
  have hnc := occ_not_covered hinv0 hidx0
  set es1 := es.set idx (.Occupied (f idx v).2) with hes1
  have hagne : ∀ j, j ≠ idx → es1[j]? = es[j]? := by
    intro j hj
    rw [hes1, List.getElem?_set_ne (fun hh => hj hh.symm)]
  have hvacne : ∀ j, j ≠ idx → isVacantAt es1 j = isVacantAt es j := by
    intro j hj
    unfold isVacantAt
    rw [hagne j hj]
  have hoccne : ∀ j, j ≠ idx → isOccAt es1 j = isOccAt es j := by
    intro j hj
    unfold isOccAt
    rw [hagne j hj]
  have hget1 : es1[idx]? = some (.Occupied (f idx v).2) := by
    rw [hes1, List.getElem?_set_self (by rw [hlen]; exact hlt)]
  have htake : es1.take idx = es.take idx := take_set_ge (Nat.le_refl _)
  have hcontent1 : occList (es1.take (idx + 1)) =
      mapRetain (occList (es0.take (idx + 1))) f := by
    rw [occList_take_succ_occ hget1, htake, hcontent, occList_take_succ_occ hidx0,
      mapRetain_append, mapRetain_single_true hkeep]
  refine ⟨by simpa [hes1] using hlen, Nat.le_refl _, by omega, ?_, ?_, ?_, ?_, ?_, ?_,
    hsortedN, ?_, ?_, ?_, hprevN, ?_, hcontent1⟩
  · intro j hj
    rw [hagne j (by omega), hsuffix j (by omega)]
  · intro q hq hcontra
    exact hnc q hq ⟨by omega, by omega⟩
  · intro j h1 h2 h3
    omega
  · refine Or.inr ?_
    rw [show idx + 1 - 1 = idx from rfl, isOccAt, hget1]
  · intro p hp
    have hplt := hltN p hp
    refine IsRun_congr (by simpa [hes1] using (hrunsN p hp).2.1) ?_ (hrunsN p hp)
    intro j h1 h2
    exact hagne j (by omega)
  · intro p hp
    have := hltN p hp
    omega
  · intro j hj
    by_cases hji : j = idx
    · subst hji
      rw [isVacantAt, hget1]
      simp only [Entry.isOccupied, Bool.not_true]
      constructor
      · intro h; cases h
      · rintro ⟨p, hp, h1, h2⟩
        have := hltN p hp
        omega
    · rw [hvacne j hji]
      exact hcovN j (by omega)
  · intro p hp
    have hplt := hltN p hp
    have hp12 : p.1 ≤ p.2 := (hrunsN p hp).1
    have h1 := hmaxN p hp
    refine ⟨?_, ?_⟩
    · rcases h1.1 with h | h
      · exact Or.inl h
      · exact Or.inr (by rw [hoccne (p.1 - 1) (by omega)]; exact h)
    · rw [hoccne (p.2 + 1) (by omega)]
      exact h1.2
  · refine chainTo_congr ?_ hchainN
    intro p hp
    have hplt := hltN p hp
    unfold tailNextAt
    rw [hagne p.2 (by omega)]
  · rw [countOcc_take_eq_occList_length, hcontent1, occList_take_succ_occ hidx0,
      mapRetain_append, mapRetain_single_true hkeep, List.length_append]
    have h2 : len = (mapRetain (occList (List.take idx es0)) f).length := by
      rw [← hcontent, ← countOcc_take_eq_occList_length]
      exact hlenN
    simp [h2]

/-- Keeping an occupied slot after a nonempty open vacant run `[vhi, idx)`:
`set_vacants` writes the canonical run encoding, stitches it to the previous
new tail (or makes it the free-list head), and the kept slot extends the
canonical prefix. -/
theorem MvInv.keep_lt_step {f : Nat → T → Bool × T} {es0 es : List (Entry T)}
    {rs0 rsN : List (Nat × Nat)} {idx vhi len nvi : Nat} {prev : Option Nat} {v : T}
    (hinv0 : EntriesInv es0 rs0) (hn : es0.length < USIZE)
    (hmv : MvInv f es0 rs0 es idx vhi prev len nvi rsN)
    (hidx : es[idx]? = some (.Occupied v)) (hkeep : (f idx v).1 = true)
    (hv : vhi < idx) :
    MvInv f es0 rs0 (set_vacants (es.set idx (.Occupied (f idx v).2)) nvi vhi idx prev).1
      (idx + 1) (idx + 1)
      (set_vacants (es.set idx (.Occupied (f idx v).2)) nvi vhi idx prev).2.2
      (len + 1)
      (set_vacants (es.set idx (.Occupied (f idx v).2)) nvi vhi idx prev).2.1
      (rsN ++ [(vhi, idx - 1)]) := by
  obtain ⟨hlen, hvhi, hvhi_le, hsuffix, haligned, hopen, hlast, hrunsN, hltN, hsortedN,
    hcovN, hmaxN, hchainN, hprevN, hlenN, hcontent⟩ := hmv
  have hidx0 : es0[idx]? = some (.Occupied v) := by
    rw [← hsuffix idx (Nat.le_refl _)]
    exact hidx
  have hlt : idx < es0.length := (List.getElem?_eq_some_iff.1 hidx0).1
  have hlt1 : idx < es.length := by omega
  have hnc := occ_not_covered hinv0 hidx0
  have hcond : ¬ (idx ≤ vhi) := by omega
  have hprevlt : ∀ pt, prev = some pt → pt + 1 < vhi ∧ isTailAt es pt = true := by
    intro pt hpt
    rw [hpt] at hprevN
    rcases hgl : rsN.getLast? with _ | q
    · rw [hgl] at hprevN
      cases hprevN
    · rw [hgl] at hprevN
      have hq : q ∈ rsN := List.mem_of_mem_getLast? hgl
      have hqpt : pt = q.2 := by simpa using hprevN
      subst hqpt
      exact ⟨hltN q hq, (hrunsN q hq).2.2.2.1⟩
  set kv2 := (f idx v).2 with hkv2
  set es1 := es.set idx (Entry.Occupied kv2) with hes1
  set es2 := (if vhi + 2 ≤ idx then es1.set vhi (Entry.VacantHead (idx - (vhi + 2)))
    else es1) with hes2
  set es3 := es2.set (idx - 1) (Entry.VacantTail INVALID_INDEX) with hes3
  set es4 := (match prev with
    | some p => es3.set p (Entry.VacantTail vhi)
    | none => es3) with hes4
  have hsv : set_vacants es1 nvi vhi idx prev =
      (es4, (if nvi = INVALID_INDEX then vhi else nvi), some (idx - 1)) := by
    rw [set_vacants, if_neg hcond]
  have hlen1 : es1.length = es.length := by simp [hes1]
  have hlen2 : es2.length = es.length := by
    rw [hes2]
    split <;> simp [hlen1]
  have hlen3 : es3.length = es.length := by simp [hes3, hlen2]
  have hlen4 : es4.length = es.length := by
    rw [hes4]
    rcases prev with _ | pt <;> simp [hlen3]
  have hg4 : ∀ j, es4[j]? =
      (if prev = some j then some (Entry.VacantTail vhi)
      else if j = idx - 1 then some (Entry.VacantTail INVALID_INDEX)
      else if vhi + 2 ≤ idx ∧ j = vhi then some (Entry.VacantHead (idx - (vhi + 2)))
      else if j = idx then some (Entry.Occupied kv2)
      else es[j]?) := by
    intro j
    have h1 : es1[j]? = (if j = idx then some (Entry.Occupied kv2) else es[j]?) := by
      rw [hes1]
      by_cases hj : j = idx
      · subst hj
        rw [if_pos rfl]
        exact List.getElem?_set_self hlt1
      · rw [if_neg hj, List.getElem?_set_ne (fun hh => hj hh.symm)]
    have h2 : es2[j]? = (if vhi + 2 ≤ idx ∧ j = vhi then
        some (Entry.VacantHead (idx - (vhi + 2))) else es1[j]?) := by
      rw [hes2]
      by_cases hc : vhi + 2 ≤ idx
      · by_cases hj : j = vhi
        · subst hj
          rw [if_pos hc, if_pos ⟨hc, rfl⟩]
          exact List.getElem?_set_self (by rw [hlen1]; omega)
        · rw [if_pos hc, if_neg (fun hh => hj hh.2), List.getElem?_set_ne
            (fun hh => hj hh.symm)]
      · rw [if_neg hc, if_neg (fun hh => hc hh.1)]
    have h3 : es3[j]? = (if j = idx - 1 then some (Entry.VacantTail INVALID_INDEX)
        else es2[j]?) := by
      rw [hes3]
      by_cases hj : j = idx - 1
      · subst hj
        rw [if_pos rfl]
        exact List.getElem?_set_self (by rw [hlen2]; omega)
      · rw [if_neg hj, List.getElem?_set_ne (fun hh => hj hh.symm)]
    have h4 : es4[j]? = (if prev = some j then some (Entry.VacantTail vhi)
        else es3[j]?) := by
      rcases hpv : prev with _ | pt
      · rw [if_neg (by simp)]
        rw [hes4, hpv]
      · rw [hes4, hpv]
        show (es3.set pt (Entry.VacantTail vhi))[j]? = _
        by_cases hj : pt = j
        · subst hj
          rw [if_pos rfl]
          refine List.getElem?_set_self ?_
          have := (hprevlt pt hpv).1
          rw [hlen3]
          omega
        · rw [if_neg (by simpa using hj), List.getElem?_set_ne hj]
    rw [h4, h3, h2, h1]
  have hvac4lt : ∀ j, j < vhi → isVacantAt es4 j = isVacantAt es j := by
    intro j hj
    unfold isVacantAt
    rw [hg4 j]
    by_cases hp : prev = some j
    · rw [if_pos hp]
      obtain ⟨h1, h2⟩ := hprevlt j hp
      obtain ⟨nx, hnx⟩ := getElem?_of_isTailAt h2
      rw [hnx]
      rfl
    · rw [if_neg hp, if_neg (by omega), if_neg (by rintro ⟨-, hh⟩; omega),
        if_neg (by omega)]
  have hocc4lt : ∀ j, j < vhi → prev ≠ some j → es4[j]? = es[j]? := by
    intro j hj hp
    rw [hg4 j, if_neg hp, if_neg (by omega), if_neg (by rintro ⟨-, hh⟩; omega),
      if_neg (by omega)]
  have hocc4occ : ∀ j, j < vhi → isOccAt es j = true → isOccAt es4 j = true := by
    intro j hj hocc
    have hp : prev ≠ some j := by
      intro hp
      obtain ⟨-, h2⟩ := hprevlt j hp
      obtain ⟨nx, hnx⟩ := getElem?_of_isTailAt h2
      rw [isOccAt, hnx] at hocc
      cases hocc
    rw [isOccAt, hocc4lt j hj hp]
    rw [isOccAt] at hocc
    exact hocc
  have hg4idx : es4[idx]? = some (Entry.Occupied kv2) := by
    rw [hg4 idx, if_neg ?_, if_neg (by omega), if_neg (by rintro ⟨-, hh⟩; omega),
      if_pos rfl]
    intro hp
    have := (hprevlt idx hp).1
    omega
  have hg4tail : es4[idx - 1]? = some (Entry.VacantTail INVALID_INDEX) := by
    rw [hg4 (idx - 1), if_neg ?_, if_pos rfl]
    intro hp
    have := (hprevlt (idx - 1) hp).1
    omega
  have hg4head : vhi + 2 ≤ idx → es4[vhi]? = some (Entry.VacantHead (idx - (vhi + 2))) := by
    intro hc
    rw [hg4 vhi, if_neg ?_, if_neg (by omega), if_pos ⟨hc, rfl⟩]
    intro hp
    have := (hprevlt vhi hp).1
    omega
  have hg4gt : ∀ j, idx < j → es4[j]? = es[j]? := by
    intro j hj
    rw [hg4 j, if_neg ?_, if_neg (by omega), if_neg (by rintro ⟨-, hh⟩; omega),
      if_neg (by omega)]
    intro hp
    have := (hprevlt j hp).1
    omega
  have hg4mid : ∀ j, vhi < j → j < idx - 1 → es4[j]? = es[j]? := by
    intro j hj1 hj2
    rw [hg4 j, if_neg ?_, if_neg (by omega), if_neg (by rintro ⟨-, hh⟩; omega),
      if_neg (by omega)]
    intro hp
    have := (hprevlt j hp).1
    omega
  have hnewrun : IsRun es4 vhi (idx - 1) := by
    refine ⟨by omega, by rw [hlen4]; omega, ?_, ?_, ?_⟩
    · intro j hj h1 h2
      by_cases hje : j = idx - 1
      · subst hje
        rw [isVacantAt, hg4tail]
        rfl
      · by_cases hjh : j = vhi
        · have hc : vhi + 2 ≤ idx := by omega
          rw [hjh, isVacantAt, hg4head hc]
          rfl
        · rw [show isVacantAt es4 j = isVacantAt es j by
            unfold isVacantAt; rw [hg4mid j (by omega) (by omega)]]
          exact hopen j (by omega) (by omega) (by omega)
    · rw [isTailAt, hg4tail]
    · intro hlt2
      have hc : vhi + 2 ≤ idx := by omega
      rw [isHeadAt, hg4head hc]
      rw [show idx - 1 - vhi - 1 = idx - (vhi + 2) from by omega]
      simp
  have holdruns : ∀ p ∈ rsN, IsRun es4 p.1 p.2 := by
    intro p hp
    have hplt := hltN p hp
    have hpr := hrunsN p hp
    have hp12 : p.1 ≤ p.2 := hpr.1
    have hagp : ∀ j, p.1 ≤ j → j ≤ p.2 →
        es4[j]? = (if prev = some j then some (Entry.VacantTail vhi) else es[j]?) := by
      intro j h1 h2
      by_cases hp1 : prev = some j
      · rw [hg4 j, if_pos hp1, if_pos hp1]
      · rw [hg4 j, if_neg hp1, if_neg (by omega), if_neg (by rintro ⟨-, hh⟩; omega),
          if_neg (by omega), if_neg hp1]
    obtain ⟨-, hptl, hpvac, hptail, hphead⟩ := hpr
    refine ⟨hp12, by rw [hlen4]; omega, ?_, ?_, ?_⟩
    · intro j hj h1 h2
      rw [isVacantAt, hagp j h1 h2]
      by_cases hp1 : prev = some j
      · rw [if_pos hp1]
        rfl
      · rw [if_neg hp1]
        have := hpvac j (by omega) h1 h2
        rw [isVacantAt] at this
        exact this
    · rw [isTailAt, hagp p.2 hp12 (Nat.le_refl _)]
      by_cases hp1 : prev = some p.2
      · rw [if_pos hp1]
      · rw [if_neg hp1]
        rw [isTailAt] at hptail
        exact hptail
    · intro hlt2
      have hp1 : prev ≠ some p.1 := by
        intro hp1
        obtain ⟨-, h2⟩ := hprevlt p.1 hp1
        obtain ⟨nx, hnx⟩ := getElem?_of_isTailAt h2
        have := getElem?_of_isHeadAt (hphead hlt2)
        rw [hnx] at this
        cases this
      rw [isHeadAt, hagp p.1 (Nat.le_refl _) hp12, if_neg hp1]
      rw [isHeadAt] at hphead
      exact hphead hlt2
  have hcontent4 : occList (es4.take (idx + 1)) =
      mapRetain (occList (es0.take (idx + 1))) f := by
    have hstep2a : ∀ m, occList (es2.take m) = occList (es1.take m) := by
      intro m
      rw [hes2]
      split
      · rename_i hc
        refine occList_take_set_vacant ?_ rfl
        rw [hes1, isVacantAt_set_ne (by omega)]
        exact hopen vhi (Nat.le_refl _) (by omega) (by omega)
      · rfl
    have hstep3a : ∀ m, occList (es3.take m) = occList (es2.take m) := by
      intro m
      rw [hes3]
      refine occList_take_set_vacant ?_ rfl
      by_cases hc : vhi + 2 ≤ idx
      · rw [show isVacantAt es2 (idx - 1) = isVacantAt es1 (idx - 1) by
          unfold isVacantAt
          rw [hes2, if_pos hc, List.getElem?_set_ne (by omega)]]
        rw [hes1, isVacantAt_set_ne (by omega)]
        exact hopen (idx - 1) (by omega) (by omega) (by omega)
      · rw [show isVacantAt es2 (idx - 1) = isVacantAt es1 (idx - 1) by
          rw [hes2, if_neg hc]]
        rw [hes1, isVacantAt_set_ne (by omega)]
        exact hopen (idx - 1) (by omega) (by omega) (by omega)
    have hstep4a : ∀ m, occList (es4.take m) = occList (es3.take m) := by
      intro m
      rcases hpv : prev with _ | pt
      · rw [hes4, hpv]
      · rw [hes4, hpv]
        show occList ((es3.set pt (Entry.VacantTail vhi)).take m) = _
        obtain ⟨h1, h2⟩ := hprevlt pt hpv
        refine occList_take_set_vacant ?_ rfl
        obtain ⟨nx, hnx⟩ := getElem?_of_isTailAt h2
        rw [show isVacantAt es3 pt = isVacantAt es pt by
          unfold isVacantAt
          rw [hes3, List.getElem?_set_ne (by omega), hes2]
          by_cases hc : vhi + 2 ≤ idx
          · rw [if_pos hc, List.getElem?_set_ne (by omega), hes1,
              List.getElem?_set_ne (by omega)]
          · rw [if_neg hc, hes1, List.getElem?_set_ne (by omega)]]
        rw [isVacantAt, hnx]
        rfl
    have hstep1a : occList (es1.take idx) = occList (es.take idx) := by
      rw [hes1, take_set_ge (Nat.le_refl _)]
    have hvacmid : ∀ j, vhi ≤ j → j < vhi + (idx - vhi) → isVacantAt es j = true := by
      intro j h1 h2
      exact hopen j h1 (by omega) (by omega)
    have hmid : occList (es.take idx) = occList (es.take vhi) := by
      rw [show idx = vhi + (idx - vhi) from by omega]
      exact occList_take_add_vacant (idx - vhi) hvacmid
    rw [occList_take_succ_occ hg4idx, hstep4a, hstep3a, hstep2a, hstep1a, hmid,
      hcontent, occList_take_succ_occ hidx0, mapRetain_append,
      mapRetain_single_true hkeep]
  rw [hsv]
  show MvInv f es0 rs0 es4 (idx + 1) (idx + 1) (some (idx - 1)) (len + 1)
    (if nvi = INVALID_INDEX then vhi else nvi) (rsN ++ [(vhi, idx - 1)])
  refine ⟨by rw [hlen4]; exact hlen, Nat.le_refl _, by omega, ?_, ?_, ?_, ?_, ?_, ?_,
    ?_, ?_, ?_, ?_, ?_, ?_, hcontent4⟩
  · intro j hj
    rw [hg4gt j (by omega), hsuffix j (by omega)]
  · intro q hq hcontra
    exact hnc q hq ⟨by omega, by omega⟩
  · intro j h1 h2 h3
    omega
  · refine Or.inr ?_
    rw [show idx + 1 - 1 = idx from rfl, isOccAt, hg4idx]
  · intro p hp
    rcases List.mem_append.1 hp with hp1 | hp1
    · exact holdruns p hp1
    · rw [show p = (vhi, idx - 1) by simpa using hp1]
      exact hnewrun
  · intro p hp
    rcases List.mem_append.1 hp with hp1 | hp1
    · have := hltN p hp1
      omega
    · have hpe : p = (vhi, idx - 1) := by simpa using hp1
      subst hpe
      show idx - 1 + 1 < idx + 1
      omega
  · rw [List.pairwise_append]
    refine ⟨hsortedN, by simp, ?_⟩
    intro a ha b hb
    have hbe : b = (vhi, idx - 1) := by simpa using hb
    subst hbe
    have := hltN a ha
    show a.2 < vhi
    omega
  · intro j hj
    by_cases hjv : j < vhi
    · rw [hvac4lt j hjv, hcovN j hjv]
      constructor
      · rintro ⟨p, hp, h1, h2⟩
        exact ⟨p, List.mem_append.2 (Or.inl hp), h1, h2⟩
      · rintro ⟨p, hp, h1, h2⟩
        rcases List.mem_append.1 hp with hp1 | hp1
        · exact ⟨p, hp1, h1, h2⟩
        · have hpe : p = (vhi, idx - 1) := by simpa using hp1
          subst hpe
          have h1a : vhi ≤ j := h1
          omega
    · by_cases hji : j = idx
      · rw [hji, isVacantAt, hg4idx]
        simp only [Entry.isOccupied, Bool.not_true]
        constructor
        · intro h; cases h
        · rintro ⟨p, hp, h1, h2⟩
          rcases List.mem_append.1 hp with hp1 | hp1
          · have := hltN p hp1
            omega
          · have hpe : p = (vhi, idx - 1) := by simpa using hp1
            subst hpe
            have h2a : idx ≤ idx - 1 := h2
            omega
      · have hjr : vhi ≤ j ∧ j ≤ idx - 1 := by omega
        constructor
        · intro h
          exact ⟨(vhi, idx - 1), List.mem_append.2 (Or.inr (by simp)), hjr.1, hjr.2⟩
        · intro h
          exact isVacantAt_true_of_isRun hnewrun hjr.1 hjr.2
  · intro p hp
    rcases List.mem_append.1 hp with hp1 | hp1
    · have hplt := hltN p hp1
      have hp12 : p.1 ≤ p.2 := (hrunsN p hp1).1
      have h1 := hmaxN p hp1
      refine ⟨?_, ?_⟩
      · rcases h1.1 with h | h
        · exact Or.inl h
        · exact Or.inr (hocc4occ (p.1 - 1) (by omega) h)
      · exact hocc4occ (p.2 + 1) (by omega) h1.2
    · have hpe : p = (vhi, idx - 1) := by simpa using hp1
      subst hpe
      refine ⟨?_, ?_⟩
      · show vhi = 0 ∨ isOccAt es4 (vhi - 1) = true
        by_cases hv0 : vhi = 0
        · exact Or.inl hv0
        · rcases hlast with h | h
          · exact absurd h hv0
          · exact Or.inr (hocc4occ (vhi - 1) (by omega) h)
      · show isOccAt es4 (idx - 1 + 1) = true
        rw [show idx - 1 + 1 = idx from by omega, isOccAt, hg4idx]
  · -- the chain
    show chainTo es4 (if nvi = INVALID_INDEX then vhi else nvi)
      (rsN ++ [(vhi, idx - 1)]) INVALID_INDEX
    rw [chainTo_snoc]
    constructor
    · show chainTo es4 (if nvi = INVALID_INDEX then vhi else nvi) rsN vhi
      rcases hgl : rsN.getLast? with _ | q
      · have hnil : rsN = [] := List.getLast?_eq_none_iff.1 hgl
        subst hnil
        have hnvi : nvi = INVALID_INDEX := hchainN
        rw [if_pos hnvi]
        exact rfl
      · have hq : q ∈ rsN := List.mem_of_mem_getLast? hgl
        have hsplitq : rsN.dropLast ++ [q] = rsN := List.dropLast_append_getLast? q hgl
        have hq12 : q.1 ≤ q.2 := (hrunsN q hq).1
        have hprevq : prev = some q.2 := by
          rw [hprevN, hgl]
          rfl
        have hnvine : nvi ≠ INVALID_INDEX := by
          rcases hrs : rsN with _ | ⟨p0, rest⟩
          · rw [hrs] at hgl
            cases hgl
          · rw [hrs] at hchainN
            have h0 : nvi = p0.1 := hchainN.1
            have hp0 : p0 ∈ rsN := by rw [hrs]; simp
            have := hltN p0 hp0
            have := (hrunsN p0 hp0).1
            rw [h0]
            unfold INVALID_INDEX
            omega
        rw [if_neg hnvine]
        have hold : chainTo es nvi (rsN.dropLast ++ [q]) INVALID_INDEX := by
          rw [hsplitq]
          exact hchainN
        rw [chainTo_snoc] at hold
        rw [← hsplitq, chainTo_snoc]
        refine ⟨?_, ?_⟩
        · refine chainTo_congr ?_ hold.1
          intro p hp
          have hpmem : p ∈ rsN := by
            rw [← hsplitq]
            exact List.mem_append.2 (Or.inl hp)
          have hpne : p.2 ≠ q.2 := by
            have hpw2 : ∀ a ∈ rsN.dropLast, a.2 < q.1 := by
              have := hsortedN
              rw [← hsplitq, List.pairwise_append] at this
              intro a ha
              have := this.2.2 a ha q (by simp)
              exact this
            have := hpw2 p hp
            omega
          have hplt := hltN p hpmem
          rw [tailNextAt, tailNextAt, hocc4lt p.2 (by omega)
            (by rw [hprevq]; intro hh; exact hpne (Option.some.inj hh).symm)]
        · show tailNextAt es4 q.2 = vhi
          rw [tailNextAt, hg4 q.2, if_pos hprevq]
    · show tailNextAt es4 (idx - 1) = INVALID_INDEX
      rw [tailNextAt, hg4tail]
  · -- hprevN
    rw [List.getLast?_concat]
    rfl
  · -- hlenN
    rw [countOcc_take_eq_occList_length, hcontent4, occList_take_succ_occ hidx0,
      mapRetain_append, mapRetain_single_true hkeep, List.length_append]
    have h2 : len = (mapRetain (occList (List.take idx es0)) f).length := by
      rw [← hcontent, ← countOcc_take_eq_occList_length]
      exact hlenN
    simp [h2]

/-- The compaction loop preserves the invariant through to loop exit, where
the cursor has crossed the whole array. -/
theorem mv_loop_spec {f : Nat → T → Bool × T} {es0 : List (Entry T)}
    {rs0 : List (Nat × Nat)} (hinv0 : EntriesInv es0 rs0) (hn : es0.length < USIZE) :
    ∀ (fuel : Nat) (es : List (Entry T)) (idx vhi : Nat) (prev : Option Nat)
      (len nvi : Nat) (rsN : List (Nat × Nat)), es0.length < fuel + idx →
      MvInv f es0 rs0 es idx vhi prev len nvi rsN →
      ∃ idx1 prev1 rsN1, es0.length ≤ idx1 ∧
        MvInv f es0 rs0 (mv_loop f fuel es idx vhi prev len nvi).entries idx1
          (mv_loop f fuel es idx vhi prev len nvi).vhi prev1
          (mv_loop f fuel es idx vhi prev len nvi).len
          (mv_loop f fuel es idx vhi prev len nvi).nvi rsN1 := by
  intro fuel
  induction fuel with
  | zero =>
    intro es idx vhi prev len nvi rsN hfuel hmv
    exact ⟨idx, prev, rsN, by omega, hmv⟩
  | succ fuel ih =>
    intro es idx vhi prev len nvi rsN hfuel hmv
    rcases hget : es[idx]? with _ | e
    · have hge : es.length ≤ idx := List.getElem?_eq_none_iff.1 hget
      have hlen := hmv.hlen
      simp only [mv_loop, hget]
      exact ⟨idx, prev, rsN, by omega, hmv⟩
    · rcases e with v | b | nx
      · by_cases hkeep : (f idx v).1 = true
        · by_cases hveq : vhi = idx
          · rw [hveq] at hmv
            have hmv1 := MvInv.keep_eq_step hinv0 hmv hget hkeep
            simp only [mv_loop, hget]
            rw [if_pos hkeep, hveq]
            rw [show set_vacants (es.set idx (Entry.Occupied (f idx v).2)) nvi idx idx
                prev = (es.set idx (Entry.Occupied (f idx v).2), nvi, prev) by
              rw [set_vacants, if_pos (Nat.le_refl _)]]
            exact ih _ _ _ _ _ _ _ (by omega) hmv1
          · have hmv1 := MvInv.keep_lt_step hinv0 hn hmv hget hkeep
              (by have := hmv.hvhi; omega)
            simp only [mv_loop, hget]
            rw [if_pos hkeep]
            exact ih _ _ _ _ _ _ _ (by omega) hmv1
        · have hmv1 := MvInv.drop_step hinv0 hmv hget (by simpa using hkeep)
          simp only [mv_loop, hget]
          rw [if_neg hkeep]
          exact ih _ _ _ _ _ _ _ (by omega) hmv1
      · have hmv1 := MvInv.vh_step hinv0 hmv hget
        simp only [mv_loop, hget]
        exact ih _ _ _ _ _ _ _ (by omega) hmv1
      · have hmv1 := MvInv.vt_step hinv0 hmv hget
        simp only [mv_loop, hget]
        exact ih _ _ _ _ _ _ _ (by omega) hmv1

/-- `merge_vacants` on a valid state: the result is in compacted form, its
occupied slots are the retained (and rewritten) occupied slots of the input,
and the churn counter is reset. -/
theorem merge_vacants_spec {s : SlabMap T} {rs : List (Nat × Nat)}
    (hE : EntriesInv s.entries rs) (hU : s.entries.length < USIZE)
    (f : Nat → T → Bool × T) :
    ∃ rs1, CanonicalWith (s.merge_vacants f) rs1 ∧
      occList (s.merge_vacants f).entries = mapRetain (occList s.entries) f ∧
      (s.merge_vacants f).non_optimized_count = 0 := by
  obtain ⟨idx1, prev1, rsN1, hge, hmv⟩ := mv_loop_spec hE hU (s.entries.length + 1)
    s.entries 0 0 none 0 INVALID_INDEX [] (by omega) (MvInv.start f s.entries rs)
  obtain ⟨hlen, hvhi, hvhi_le, hsuffix, haligned, hopen, hlast, hrunsN, hltN, hsortedN,
    hcovN, hmaxN, hchainN, hprevN, hlenN, hcontent⟩ := hmv
  set r := mv_loop f (s.entries.length + 1) s.entries 0 0 none 0 INVALID_INDEX with hr
  set esOut := r.entries.take r.vhi with hesOut
  have hlenOut : esOut.length = r.vhi := by
    rw [hesOut, List.length_take]
    omega
  have hagOut : ∀ j, j < r.vhi → esOut[j]? = r.entries[j]? := by
    intro j hj
    rw [hesOut, List.getElem?_take, if_pos hj]
  have hvacOut : ∀ j, j < r.vhi → isVacantAt esOut j = isVacantAt r.entries j := by
    intro j hj
    unfold isVacantAt
    rw [hagOut j hj]
  have hshow : s.merge_vacants f =
      { entries := esOut, next_vacant_idx := r.nvi, len := r.len,
        non_optimized_count := 0 } := rfl
  rw [hshow]
  have hrunsOut : ∀ p ∈ rsN1, IsRun esOut p.1 p.2 := by
    intro p hp
    have h1 := hltN p hp
    have h2 := (hrunsN p hp).1
    refine IsRun_congr (by omega) ?_ (hrunsN p hp)
    intro j hj1 hj2
    exact hagOut j (by omega)
  refine ⟨rsN1, ⟨⟨⟨hrunsOut, ?_, ?_⟩, ?_, ?_, ?_⟩, hsortedN, ?_, ?_⟩, ?_, rfl⟩
  · exact hsortedN.imp (fun h => Or.inl h)
  · intro j hj
    rw [hlenOut] at hj
    rw [hvacOut j hj]
    exact hcovN j hj
  · show chainFromB esOut r.nvi rsN1 = true
    rw [← chainTo_iff_chainFromB]
    refine chainTo_congr ?_ hchainN
    intro p hp
    have h1 := hltN p hp
    rw [tailNextAt, tailNextAt, hagOut p.2 (by omega)]
  · exact hlenN
  · show esOut.length < USIZE
    omega
  · intro p hp
    have h1 := hltN p hp
    have h2 := (hrunsN p hp).1
    have h3 := hmaxN p hp
    refine ⟨?_, ?_⟩
    · rcases h3.1 with h | h
      · exact Or.inl h
      · refine Or.inr ?_
        rw [isOccAt, hagOut (p.1 - 1) (by omega)]
        rw [isOccAt] at h
        exact h
    · rw [isOccAt, hagOut (p.2 + 1) (by omega)]
      rw [isOccAt] at h3
      exact h3.2
  · show esOut = [] ∨ isOccAt esOut (esOut.length - 1) = true
    by_cases hv0 : r.vhi = 0
    · refine Or.inl ?_
      rw [hesOut, hv0]
      rfl
    · rcases hlast with h | h
      · exact absurd h hv0
      · refine Or.inr ?_
        rw [hlenOut, isOccAt, hagOut (r.vhi - 1) (by omega)]
        rw [isOccAt] at h
        exact h
  · show occList esOut = mapRetain (occList s.entries) f
    rw [hesOut, hcontent, List.take_of_length_le (by omega)]

/-! ## Iterator correctness -/

theorem occListFrom_drop_vacant_step {es : List (Entry T)} {idx : Nat}
    (hlt : idx < es.length) (hvac : isVacantAt es idx = true) :
    occListFrom (es.drop idx) idx = occListFrom (es.drop (idx + 1)) (idx + 1) := by
  rw [List.drop_eq_getElem_cons hlt]
  rcases hg : es[idx] with v | b | nx
  · exfalso
    rw [isVacantAt, List.getElem?_eq_getElem hlt, hg] at hvac
    exact Bool.noConfusion hvac
  · rw [occListFrom]
  · rw [occListFrom]

theorem occListFrom_drop_add_vacant {es : List (Entry T)} : ∀ (m idx : Nat),
    idx + m ≤ es.length → (∀ j, idx ≤ j → j < idx + m → isVacantAt es j = true) →
    occListFrom (es.drop idx) idx = occListFrom (es.drop (idx + m)) (idx + m)
  | 0, idx, _, _ => rfl
  | m + 1, idx, hle, hvac => by
    rw [occListFrom_drop_vacant_step (by omega) (hvac idx (Nat.le_refl _) (by omega))]
    rw [show idx + (m + 1) = (idx + 1) + m from by omega]
    exact occListFrom_drop_add_vacant m (idx + 1) (by omega)
      (fun j h1 h2 => hvac j (by omega) (by omega))

/-- The iterator, started at a position that is not strictly inside a vacant
run, yields exactly the occupied slots from that position on. -/
theorem iterLoop_eq {es : List (Entry T)} {rs : List (Nat × Nat)}
    (hinv : EntriesInv es rs) :
    ∀ (fuel idx : Nat), es.length < fuel + idx →
      (∀ p ∈ rs, ¬(p.1 < idx ∧ idx ≤ p.2)) →
      iterLoop es fuel idx = occListFrom (es.drop idx) idx := by
  obtain ⟨hruns, hpw, hcov⟩ := hinv
  intro fuel
  induction fuel with
  | zero =>
    intro idx hfuel halign
    simp only [iterLoop]
    rw [List.drop_eq_nil_of_le (by omega), occListFrom]
  | succ fuel ih =>
    intro idx hfuel halign
    rcases hget : es[idx]? with _ | e
    · have hge : es.length ≤ idx := List.getElem?_eq_none_iff.1 hget
      simp only [iterLoop, hget]
      rw [List.drop_eq_nil_of_le hge, occListFrom]
    · have hlt : idx < es.length := (List.getElem?_eq_some_iff.1 hget).1
      rcases e with v | b | nx
      · simp only [iterLoop, hget]
        rw [List.drop_eq_getElem_cons hlt]
        have hgg : es[idx] = Entry.Occupied v := by
          have h1 := List.getElem?_eq_getElem hlt
          rw [hget] at h1
          exact (Option.some.inj h1).symm
        rw [hgg, occListFrom]
        congr 1
        refine ih (idx + 1) (by omega) ?_
        intro p hp hcontra
        have hcover : p.1 ≤ idx ∧ idx ≤ p.2 := by omega
        have hvac := (hcov idx hlt).2 ⟨p, hp, hcover.1, hcover.2⟩
        rw [isVacantAt, hget] at hvac
        exact Bool.noConfusion hvac
      · have hvac : isVacantAt es idx = true := by rw [isVacantAt, hget]; rfl
        obtain ⟨q, hq, hq1, hq2⟩ := (hcov idx hlt).1 hvac
        have hq1e : q.1 = idx := by
          rcases Nat.lt_or_ge q.1 idx with h | h
          · exact absurd ⟨h, hq2⟩ (halign q hq)
          · omega
        have hqlt : q.1 < q.2 := by
          rcases Nat.lt_or_ge q.1 q.2 with h | h
          · exact h
          · exfalso
            have htail := (hruns q hq).2.2.2.1
            rw [isTailAt, show q.2 = idx from by omega, hget] at htail
            exact Bool.noConfusion htail
        have hhead := (hruns q hq).2.2.2.2 hqlt
        rw [isHeadAt, hq1e, hget] at hhead
        have hb : b = q.2 - idx - 1 := by simpa using hhead
        have hq2lt : q.2 < es.length := (hruns q hq).2.1
        simp only [iterLoop, hget]
        rw [show idx + b + 2 = q.2 + 1 from by omega]
        have hskip : occListFrom (es.drop idx) idx =
            occListFrom (es.drop (idx + (q.2 + 1 - idx))) (idx + (q.2 + 1 - idx)) :=
          occListFrom_drop_add_vacant (q.2 + 1 - idx) idx (by omega)
            (fun j h1 h2 => isVacantAt_true_of_isRun (hruns q hq) (by omega) (by omega))
        rw [hskip, show idx + (q.2 + 1 - idx) = q.2 + 1 from by omega]
        refine ih (q.2 + 1) (by omega) ?_
        intro p hp hcontra
        have hcover : p.1 ≤ q.2 ∧ q.2 ≤ p.2 := by omega
        have hpq := runs_unique hpw hp hq hcover ⟨by omega, Nat.le_refl _⟩
        rw [hpq] at hcontra
        omega
      · have hvac : isVacantAt es idx = true := by rw [isVacantAt, hget]; rfl
        obtain ⟨q, hq, hq1, hq2⟩ := (hcov idx hlt).1 hvac
        have hq1e : q.1 = idx := by
          rcases Nat.lt_or_ge q.1 idx with h | h
          · exact absurd ⟨h, hq2⟩ (halign q hq)
          · omega
        have hq2e : q.2 = idx := by
          rcases Nat.lt_or_ge q.1 q.2 with h | h
          · exfalso
            have hhead := (hruns q hq).2.2.2.2 h
            rw [isHeadAt, hq1e, hget] at hhead
            exact Bool.noConfusion hhead
          · omega
        simp only [iterLoop, hget]
        rw [occListFrom_drop_vacant_step hlt hvac]
        refine ih (idx + 1) (by omega) ?_
        intro p hp hcontra
        have hcover : p.1 ≤ idx ∧ idx ≤ p.2 := by omega
        have hpq := runs_unique hpw hp hq hcover ⟨by omega, by omega⟩
        rw [hpq] at hcontra
        omega

/-- On a valid state, `iter` yields exactly the occupied slots in increasing
key order. -/
theorem iterList_eq_occList {s : SlabMap T} {rs : List (Nat × Nat)}
    (hinv : EntriesInv s.entries rs) : s.iterList = occList s.entries := by
  rw [SlabMap.iterList, iterLoop_eq hinv (s.entries.length + 1) 0 (by omega)
    (fun p hp hcontra => by omega)]
  rfl

/-! ## Trace invariants -/

theorem InvWith_new : InvWith (SlabMap.new : SlabMap T) [] := by
  refine ⟨⟨fun p hp => absurd hp (List.not_mem_nil p), List.Pairwise.nil, ?_⟩, ?_, rfl, ?_⟩
  · intro j hj
    simp [SlabMap.new] at hj
  · simp [chainFromB, SlabMap.new]
  · show (0 : Nat) < USIZE
    norm_num [USIZE]

theorem mapRetain_id (m : List (Nat × T)) : mapRetain m (fun _ v => (true, v)) = m := by
  induction m with
  | nil => rfl
  | cons p rest ih =>
    show (p.1, p.2) :: mapRetain rest (fun _ v => (true, v)) = p :: rest
    rw [ih]

theorem retain_spec {s : SlabMap T} {rs : List (Nat × Nat)} (hinv : InvWith s rs)
    (f : Nat → T → Bool × T) :
    ∃ rs1, CanonicalWith (s.retain f) rs1 ∧
      occList (s.retain f).entries = mapRetain (occList s.entries) f ∧
      (s.retain f).non_optimized_count = 0 :=
  merge_vacants_spec hinv.1 hinv.2.2.2 f

theorem optimize_spec {s : SlabMap T} {rs : List (Nat × Nat)} (hinv : InvWith s rs) :
    ∃ rs1, InvWith s.optimize rs1 ∧
      occList s.optimize.entries = occList s.entries := by
  rw [SlabMap.optimize]
  by_cases h : s.is_optimized = true
  · rw [if_pos h]
    exact ⟨rs, hinv, rfl⟩
  · rw [if_neg h]
    obtain ⟨rs1, hcan, hocc, -⟩ := merge_vacants_spec hinv.1 hinv.2.2.2
      (fun _ v => (true, v))
    refine ⟨rs1, hcan.1, ?_⟩
    show occList (s.merge_vacants fun _ v => (true, v)).entries = occList s.entries
    rw [hocc, mapRetain_id]

theorem stepBoth_good {p p1 : SlabMap T × List (Nat × T)} {op : Op T}
    (hg : Good p) (hs : stepBoth p op = some p1) : Good p1 := by
  obtain ⟨⟨rs, hinv⟩, hm⟩ := hg
  cases op with
  | insert v =>
    rcases hins : p.1.insert v with _ | r
    · rw [stepBoth, hins] at hs
      cases hs
    · obtain ⟨k1, s1⟩ := r
      rw [stepBoth, hins] at hs
      obtain ⟨rs1, hinv1, hocc⟩ := insert_step hinv hins
      cases hs
      refine ⟨⟨rs1, hinv1⟩, ?_⟩
      show mapInsert p.2 k1 v = occList s1.entries
      rw [hm]
      exact hocc.symm
  | remove k =>
    rw [stepBoth] at hs
    obtain ⟨rs1, hinv1, hocc⟩ := remove_step hinv k
    cases hs
    refine ⟨⟨rs1, hinv1⟩, ?_⟩
    show mapErase p.2 k = occList (p.1.remove k).2.entries
    rw [hm]
    exact hocc.symm
  | clear =>
    rw [stepBoth] at hs
    cases hs
    exact ⟨⟨[], InvWith_new⟩, rfl⟩
  | optimize =>
    rw [stepBoth] at hs
    obtain ⟨rs1, hinv1, hocc⟩ := optimize_spec hinv
    cases hs
    refine ⟨⟨rs1, hinv1⟩, ?_⟩
    show p.2 = occList p.1.optimize.entries
    rw [hm, hocc]
  | retain f =>
    rw [stepBoth] at hs
    obtain ⟨rs1, hcan, hocc, -⟩ := retain_spec hinv f
    cases hs
    refine ⟨⟨rs1, hcan.1⟩, ?_⟩
    show mapRetain p.2 f = occList (p.1.retain f).entries
    rw [hm]
    exact hocc.symm
  | reserve n =>
    rw [stepBoth] at hs
    cases hs
    exact ⟨⟨rs, hinv⟩, hm⟩
  | drain =>
    rw [stepBoth] at hs
    cases hs
    exact ⟨⟨[], InvWith_new⟩, rfl⟩

theorem foldlM_stepBoth_good {ops : List (Op T)} :
    ∀ {start : SlabMap T × List (Nat × T)}, Good start →
      ∀ {p : SlabMap T × List (Nat × T)}, ops.foldlM stepBoth start = some p →
        Good p := by
  induction ops with
  | nil =>
    intro start hg p h
    rw [List.foldlM_nil] at h
    cases h
    exact hg
  | cons op rest ih =>
    intro start hg p h
    rw [List.foldlM_cons] at h
    rcases h1 : stepBoth start op with _ | q
    · rw [h1] at h
      cases h
    · rw [h1] at h
      exact ih (stepBoth_good hg h1) h

/-- Any state a trace reaches, together with its reference map, satisfies the
lockstep invariant. -/
theorem runBoth_spec {ops : List (Op T)} {s : SlabMap T} {m : List (Nat × T)}
    (h : runBoth ops = some (s, m)) : Inv s ∧ m = occList s.entries :=
  foldlM_stepBoth_good ⟨⟨[], InvWith_new⟩, rfl⟩ h

theorem step_inv {s s1 : SlabMap T} {op : Op T} (h : Inv s)
    (hs : s.step op = some s1) : Inv s1 := by
  obtain ⟨rs, hinv⟩ := h
  cases op with
  | insert v =>
    rcases hins : s.insert v with _ | r
    · rw [SlabMap.step, hins] at hs
      cases hs
    · obtain ⟨k1, s2⟩ := r
      rw [SlabMap.step, hins] at hs
      obtain ⟨rs1, hinv1, -⟩ := insert_step hinv hins
      cases hs
      exact ⟨rs1, hinv1⟩
  | remove k =>
    rw [SlabMap.step] at hs
    obtain ⟨rs1, hinv1, -⟩ := remove_step hinv k
    cases hs
    exact ⟨rs1, hinv1⟩
  | clear =>
    rw [SlabMap.step] at hs
    cases hs
    exact ⟨[], InvWith_new⟩
  | optimize =>
    rw [SlabMap.step] at hs
    obtain ⟨rs1, hinv1, -⟩ := optimize_spec hinv
    cases hs
    exact ⟨rs1, hinv1⟩
  | retain f =>
    rw [SlabMap.step] at hs
    obtain ⟨rs1, hcan, -, -⟩ := retain_spec hinv f
    cases hs
    exact ⟨rs1, hcan.1⟩
  | reserve n =>
    rw [SlabMap.step] at hs
    cases hs
    exact ⟨rs, hinv⟩
  | drain =>
    rw [SlabMap.step] at hs
    cases hs
    exact ⟨[], InvWith_new⟩

/-- Any state a trace reaches is valid. -/
theorem runTrace_inv {ops : List (Op T)} :
    ∀ {start : SlabMap T}, Inv start →
      ∀ {s : SlabMap T}, ops.foldlM SlabMap.step start = some s → Inv s := by
  induction ops with
  | nil =>
    intro start hg s h
    rw [List.foldlM_nil] at h
    cases h
    exact hg
  | cons op rest ih =>
    intro start hg s h
    rw [List.foldlM_cons] at h
    rcases h1 : start.step op with _ | q
    · rw [h1] at h
      cases h
    · rw [h1] at h
      exact ih (step_inv hg h1) h

/-! ## Churn accounting -/

theorem insert_noc_le {s : SlabMap T} {v : T} {k : Nat} {s1 : SlabMap T}
    (h : s.insert v = some (k, s1)) :
    s1.non_optimized_count ≤ s.non_optimized_count := by
  simp only [SlabMap.insert, SlabMap.insert_with_key] at h
  by_cases h1 : s.next_vacant_idx < s.entries.length
  · rw [if_pos h1] at h
    rcases hg : s.entries[s.next_vacant_idx]? with _ | e
    · rw [hg] at h
      cases h
    · rcases e with w | b | nx
      · rw [hg] at h
        cases h
      · simp only [hg] at h
        by_cases hb : 0 < b
        · rw [if_pos hb] at h
          by_cases h2 : s.next_vacant_idx + 1 < s.entries.length
          · rw [if_pos h2] at h
            cases h
            show s.non_optimized_count - 1 ≤ s.non_optimized_count
            omega
          · rw [if_neg h2] at h
            cases h
        · rw [if_neg hb] at h
          cases h
          show s.non_optimized_count - 1 ≤ s.non_optimized_count
          omega
      · rw [hg] at h
        cases h
        show s.non_optimized_count - 1 ≤ s.non_optimized_count
        omega
  · rw [if_neg h1] at h
    by_cases h2 : s.entries.length + 1 < USIZE
    · rw [if_pos h2] at h
      cases h
      exact Nat.le_refl _
    · rw [if_neg h2] at h
      cases h

theorem remove_noc_le (s : SlabMap T) (k : Nat) :
    (s.remove k).2.non_optimized_count ≤ s.non_optimized_count + 1 := by
  rcases hg : s.entries[k]? with _ | e
  · simp [SlabMap.remove, hg]
  · rcases e with v | b | nx
    · by_cases hl : ((k + 1) % USIZE == s.entries.length) = true
      · by_cases hz : s.len - 1 = 0
        · simp [SlabMap.remove, hg, hl, hz, SlabMap.clear]
        · simp [SlabMap.remove, hg, hl, hz]
      · by_cases hz : s.len - 1 = 0
        · simp [SlabMap.remove, hg, hl, hz, SlabMap.clear]
        · simp [SlabMap.remove, hg, hl, hz]
    · simp [SlabMap.remove, hg]
    · simp [SlabMap.remove, hg]

theorem stepCounts_noc {p p1 : SlabMap T × Nat × Nat} {op : Op T}
    (hle : p.1.non_optimized_count ≤ p.2.1) (hs : stepCounts p op = some p1) :
    p1.1.non_optimized_count ≤ p1.2.1 := by
  cases op with
  | insert v =>
    rcases hins : p.1.insert v with _ | r
    · rw [stepCounts, hins] at hs
      cases hs
    · rw [stepCounts, hins] at hs
      cases hs
      have hins1 : p.1.insert v = some (r.1, r.2) := by rw [hins]
      have h2 := insert_noc_le hins1
      show r.2.non_optimized_count ≤ p.2.1
      omega
  | remove k =>
    rw [stepCounts] at hs
    cases hs
    show (p.1.remove k).2.non_optimized_count ≤ p.2.1 + 1
    have := remove_noc_le p.1 k
    omega
  | clear =>
    rw [stepCounts] at hs
    cases hs
    exact Nat.le_refl _
  | optimize =>
    rw [stepCounts] at hs
    by_cases h : p.1.is_optimized = true
    · rw [if_pos h] at hs
      cases hs
      exact hle
    · rw [if_neg h] at hs
      cases hs
      exact Nat.le_refl _
  | retain f =>
    rw [stepCounts] at hs
    cases hs
    exact Nat.le_refl _
  | reserve n =>
    rw [stepCounts] at hs
    cases hs
    exact hle
  | drain =>
    rw [stepCounts] at hs
    cases hs
    exact Nat.le_refl _

theorem foldlM_stepCounts_noc {ops : List (Op T)} :
    ∀ {start : SlabMap T × Nat × Nat},
      start.1.non_optimized_count ≤ start.2.1 →
      ∀ {p : SlabMap T × Nat × Nat}, ops.foldlM stepCounts start = some p →
        p.1.non_optimized_count ≤ p.2.1 := by
  induction ops with
  | nil =>
    intro start hg p h
    rw [List.foldlM_nil] at h
    cases h
    exact hg
  | cons op rest ih =>
    intro start hg p h
    rw [List.foldlM_cons] at h
    rcases h1 : stepCounts start op with _ | q
    · rw [h1] at h
      cases h
    · rw [h1] at h
      exact ih (stepCounts_noc hg h1) h

/-! ## The claims -/

/-- C1: starting from an empty `SlabMap`, any trace of `insert`, `remove`,
`clear`, `optimize`, `retain`, `reserve` and `drain` leaves `iter()` yielding
exactly the reference map's entries, with strictly increasing keys. -/
theorem c1_refinement {ops : List (Op T)} {s : SlabMap T} {m : List (Nat × T)}
    (h : runBoth ops = some (s, m)) :
    s.iterList = m ∧ (s.iterList.map Prod.fst).Pairwise (fun a b => a < b) := by
  obtain ⟨⟨rs, hinv⟩, hm⟩ := runBoth_spec h
  have hit := iterList_eq_occList hinv.1
  refine ⟨by rw [hit, hm], ?_⟩
  rw [hit, List.pairwise_map]
  exact occListFrom_sorted s.entries 0

theorem c1_refinement_witness :
    SlabMap.iterList exPair = [(0, 9), (1, 7)] ∧
    ((SlabMap.iterList exPair).map Prod.fst).Pairwise (fun a b => a < b) :=
  @c1_refinement Nat
    [Op.insert 5, Op.insert 7, Op.remove 0, Op.insert 9, Op.optimize]
    exPair [(0, 9), (1, 7)] (by decide)

/-- C2, counterexample: a reachable state (insert 10, 11, 12; remove 1;
remove 2) whose slot array is nonempty and ends in a vacant slot. -/
theorem c2_counterexample :
    runTrace ([.insert 10, .insert 11, .insert 12, .remove 1, .remove 2] :
      List (Op Nat)) = some exTail ∧
    ¬(exTail.entries = [] ∨
      isOccAt exTail.entries (exTail.entries.length - 1) = true) := by
  decide

/-- C2, amended: the tail-truncation property is established by compaction
(`retain`, and `force_optimize` = `retain` keeping everything), not after
every operation: on a valid state the compacted array is empty or ends in an
`Occupied` slot. -/
theorem c2_amended {s : SlabMap T} {rs : List (Nat × Nat)} (hinv : InvWith s rs)
    (f : Nat → T → Bool × T) :
    (s.retain f).entries = [] ∨
      isOccAt (s.retain f).entries ((s.retain f).entries.length - 1) = true := by
  obtain ⟨rs1, hcan, -, -⟩ := retain_spec hinv f
  exact hcan.2.2.2

theorem c2_amended_witness :
    (exTail.retain fun _ v => (true, v)).entries = [] ∨
    isOccAt (exTail.retain fun _ v => (true, v)).entries
      ((exTail.retain fun _ v => (true, v)).entries.length - 1) = true :=
  c2_amended (by decide : InvWith exTail [(1, 1)]) (fun _ v => (true, v))

/-- C3, counterexample: a reachable state (via the ghost counters: one remove
and one reusing insert since the last compaction) that is in compacted form
with `churn = 1 ≠ 0 = removes - reuses`. -/
theorem c3_counterexample :
    runCounts ([.insert 10, .insert 11, .insert 12,
      .retain (fun k v => (decide (k ≠ 1), v)), .insert 13, .remove 1] :
      List (Op Nat)) = some (exMid, 1, 1) ∧
    CanonicalWith exMid [(1, 1)] ∧
    exMid.non_optimized_count = 1 ∧ (1 : Nat) - 1 ≠ 1 := by
  decide

/-- C3, amended: `churn` is bounded by the number of `remove` calls since the
last compaction, but need not equal `removes - reuses` (the decrement
saturates at zero), and a compacted-form state can carry `churn ≠ 0`. -/
theorem c3_amended {ops : List (Op T)} {s : SlabMap T} {removes reuses : Nat}
    (h : runCounts ops = some (s, removes, reuses)) :
    s.non_optimized_count ≤ removes :=
  foldlM_stepCounts_noc (Nat.le_refl 0) h

theorem c3_amended_witness : exMid.non_optimized_count ≤ 1 :=
  @c3_amended Nat
    [.insert 10, .insert 11, .insert 12, .retain (fun k v => (decide (k ≠ 1), v)),
      .insert 13, .remove 1] exMid 1 1 (by decide)

/-- C4: the queries are total: `get`, `get_mut`, `remove` and `contains_key`
accept any integer key in any state; absence (out of range or vacant) is
reported through the option/boolean result. -/
theorem c4_queries_total (s : SlabMap T) (k : Nat) :
    (s.get k = none ↔ isOccAt s.entries k = false) ∧
    s.contains_key k = (s.get k).isSome ∧
    (s.remove k).1 = s.get k ∧
    s.get_mut k = s.get k := by
  refine ⟨?_, rfl, ?_, rfl⟩
  · rcases hg : s.entries[k]? with _ | e
    · simp [SlabMap.get, isOccAt, hg]
    · rcases e with v | b | nx <;> simp [SlabMap.get, isOccAt, hg]
  · rcases hg : s.entries[k]? with _ | e
    · simp [SlabMap.remove, SlabMap.get, hg]
    · rcases e with v | b | nx <;> simp [SlabMap.remove, SlabMap.get, hg]

/-- C5: on a valid state, when the free list is nonempty the next insert
returns exactly the free-list head, stores the value there and increments
`len`; when it is empty (and a slot can still be represented) it appends and
returns the prior array length. -/
theorem c5_insert_policy {s : SlabMap T} {rs : List (Nat × Nat)}
    (hinv : InvWith s rs) (v : T) :
    (s.next_vacant_idx ≠ INVALID_INDEX →
      ∃ s1, s.insert v = some (s.next_vacant_idx, s1) ∧
        s1.get s.next_vacant_idx = some v ∧ s1.len = s.len + 1) ∧
    (s.next_vacant_idx = INVALID_INDEX → s.entries.length + 1 < USIZE →
      s.insert v = some (s.entries.length,
        (⟨s.entries ++ [.Occupied v], s.next_vacant_idx, s.len + 1,
          s.non_optimized_count⟩ : SlabMap T))) := by
  cases rs with
  | nil =>
    have hnv : s.next_vacant_idx = INVALID_INDEX := by
      have h1 := hinv.2.1
      simpa [chainFromB] using h1
    refine ⟨fun h => absurd hnv h, fun _ hcap => ?_⟩
    exact (insert_append_spec hinv hcap (fun _ => v)).1
  | cons p rest =>
    have hchain := hinv.2.1
    rw [chainFromB, Bool.and_eq_true, beq_iff_eq] at hchain
    have hnv : s.next_vacant_idx = p.1 := hchain.1
    have hp : IsRun s.entries p.1 p.2 := hinv.1.1 p (by simp)
    have hne : s.next_vacant_idx ≠ INVALID_INDEX := by
      have h1 : p.1 ≤ p.2 := hp.1
      have h2 : p.2 < s.entries.length := hp.2.1
      have h3 := hinv.2.2.2
      rw [hnv]
      show p.1 ≠ USIZE - 1
      omega
    refine ⟨fun _ => ?_, fun h _ => absurd h hne⟩
    obtain ⟨s1, rs1, heq, -, -, -, hlen1, -, hget1⟩ := insert_reuse_spec hinv (fun _ => v)
    refine ⟨s1, heq, ?_, hlen1⟩
    rw [SlabMap.get, hget1]

theorem c5_insert_policy_witness :
    ∃ s1, exTail.insert 42 = some (exTail.next_vacant_idx, s1) ∧
      s1.get exTail.next_vacant_idx = some 42 ∧ s1.len = exTail.len + 1 :=
  (c5_insert_policy (by decide : InvWith exTail [(1, 1)]) 42).1 (by decide)

/-- C6: `optimize` is idempotent -- a second call returns the very same state
(so it touches no slot) -- and `churn = 0` holds after any `optimize`. -/
theorem c6_optimize_idempotent (s : SlabMap T) :
    s.optimize.optimize = s.optimize ∧ s.optimize.non_optimized_count = 0 := by
  have hnoc : s.optimize.non_optimized_count = 0 := by
    rw [SlabMap.optimize]
    by_cases h : s.is_optimized = true
    · rw [if_pos h]
      rw [SlabMap.is_optimized, beq_iff_eq] at h
      exact h
    · rw [if_neg h]
      rfl
  have hopt : s.optimize.is_optimized = true := by
    rw [SlabMap.is_optimized, hnoc]
    rfl
  exact ⟨by rw [SlabMap.optimize, if_pos hopt], hnoc⟩

/-- C7: the worked example S3: inserting `0..=4`, removing keys 1, 2, 3 and
optimizing yields `iter() = [(0,0),(4,4)]`, slot 1 = `VacantHead 1`,
slot 3 = `VacantTail NONE`, free head 1; four further inserts return keys
1, 2, 3 and 5. -/
theorem c7_scenario :
    runKeysFrom (SlabMap.new : SlabMap Nat)
      [.insert 0, .insert 1, .insert 2, .insert 3, .insert 4, .remove 1,
        .remove 2, .remove 3, .optimize] = some (exS3, [0, 1, 2, 3, 4]) ∧
    exS3.iterList = [(0, 0), (4, 4)] ∧
    exS3.entries[1]? = some (Entry.VacantHead 1) ∧
    exS3.entries[3]? = some (Entry.VacantTail INVALID_INDEX) ∧
    exS3.next_vacant_idx = 1 ∧
    (runKeysFrom exS3
      [.insert 99, .insert 100, .insert 101, .insert 102]).map (fun p => p.2) =
      some [1, 2, 3, 5] := by
  decide

/-- C8: a `remove` that brings `len` to zero resets the container to the
freshly-constructed observable state. -/
theorem c8_remove_to_empty_resets {s : SlabMap T} {k : Nat} {v : T}
    (hocc : s.entries[k]? = some (.Occupied v)) (hlen : s.len = 1) :
    (s.remove k).2 = SlabMap.new := by
  by_cases hl : ((k + 1) % USIZE == s.entries.length) = true
  · by_cases hz : s.len - 1 = 0
    · simp [SlabMap.remove, hocc, hl, hz, SlabMap.clear, SlabMap.new]
    · omega
  · by_cases hz : s.len - 1 = 0
    · simp [SlabMap.remove, hocc, hl, hz, SlabMap.clear, SlabMap.new]
    · omega

theorem c8_remove_to_empty_resets_witness :
    (exOne.remove 0).2 = SlabMap.new :=
  c8_remove_to_empty_resets (by decide : exOne.entries[0]? =
    some (Entry.Occupied 5)) (by decide)

/-- C9: `reserve(k)` requests enough extra slots: any capacity meeting the
`Vec::reserve` postcondition for `entries_additional k` is at least
`len + k`; existing vacant slots count toward the `k` insertions. -/
theorem c9_reserve_capacity {s : SlabMap T} {rs : List (Nat × Nat)}
    (hinv : InvWith s rs) (k cap : Nat)
    (hcap : s.entries.length + s.entries_additional k ≤ cap) :
    s.len + k ≤ cap := by
  have hle : s.len ≤ s.entries.length := by
    rw [hinv.2.2.1]
    exact List.countP_le_length _
  rw [SlabMap.entries_additional] at hcap
  omega

theorem c9_reserve_capacity_witness : exMid.len + 5 ≤ 7 :=
  c9_reserve_capacity (by decide : InvWith exMid [(1, 1)]) 5 7 (by decide)

/-! ## Construction from an iterator -/

theorem occListFrom_set_occ {es : List (Entry T)} : ∀ {k : Nat} (i : Nat) (v : T),
    k < es.length →
    occListFrom (es.set k (.Occupied v)) i = mapInsert (occListFrom es i) (i + k) v := by
  induction es with
  | nil =>
    intro k i v h
    simp at h
  | cons e rest ih =>
    intro k i v h
    cases k with
    | zero =>
      cases e with
      | Occupied w => simp [occListFrom, mapInsert]
      | VacantHead b =>
        simp only [List.set_cons_zero, occListFrom]
        have hall : ∀ p ∈ occListFrom rest (i + 1), i + 0 < p.1 := by
          intro p hp
          have := occListFrom_key_ge hp
          omega
        rw [mapInsert_of_forall_gt v hall]
        simp
      | VacantTail nx =>
        simp only [List.set_cons_zero, occListFrom]
        have hall : ∀ p ∈ occListFrom rest (i + 1), i + 0 < p.1 := by
          intro p hp
          have := occListFrom_key_ge hp
          omega
        rw [mapInsert_of_forall_gt v hall]
        simp
    | succ k1 =>
      have hlt : k1 < rest.length := by simpa using h
      cases e with
      | Occupied w =>
        simp only [List.set_cons_succ, occListFrom]
        rw [ih (i + 1) v hlt, mapInsert]
        rw [if_neg (by omega), if_neg (by omega),
          show i + (k1 + 1) = i + 1 + k1 from by omega]
      | VacantHead b =>
        simp only [List.set_cons_succ, occListFrom]
        rw [ih (i + 1) v hlt, show i + (k1 + 1) = i + 1 + k1 from by omega]
      | VacantTail nx =>
        simp only [List.set_cons_succ, occListFrom]
        rw [ih (i + 1) v hlt, show i + (k1 + 1) = i + 1 + k1 from by omega]

theorem occListFrom_replicate_vt (m i nx : Nat) :
    occListFrom (List.replicate m (Entry.VacantTail nx) : List (Entry T)) i = [] := by
  induction m generalizing i with
  | zero => rfl
  | succ m1 ih =>
    rw [List.replicate_succ, occListFrom, ih]

theorem occList_buildStep (es : List (Entry T)) (kv : Nat × T) :
    occList (buildStep es kv) = mapInsert (occList es) kv.1 kv.2 := by
  simp only [buildStep]
  by_cases h : kv.1 < es.length
  · rw [if_pos h, occList, occList, occListFrom_set_occ 0 kv.2 h, Nat.zero_add]
  · rw [if_neg h]
    have hlen1 : kv.1 < (es ++ List.replicate (kv.1 + 1 - es.length)
        (Entry.VacantTail INVALID_INDEX)).length := by
      rw [List.length_append, List.length_replicate]
      omega
    rw [occList, occList, occListFrom_set_occ 0 kv.2 hlen1, Nat.zero_add,
      occListFrom_append, occListFrom_replicate_vt, List.append_nil]

theorem buildStep_length (es : List (Entry T)) (kv : Nat × T) :
    (buildStep es kv).length = max es.length (kv.1 + 1) := by
  simp only [buildStep]
  by_cases h : kv.1 < es.length
  · rw [if_pos h, List.length_set]
    omega
  · rw [if_neg h, List.length_set, List.length_append, List.length_replicate]
    omega

theorem foldl_buildStep_length {l : List (Nat × T)} :
    ∀ {es : List (Entry T)}, (∀ p ∈ l, p.1 + 1 < USIZE) → es.length < USIZE →
      (l.foldl buildStep es).length < USIZE := by
  induction l with
  | nil =>
    intro es h1 h2
    exact h2
  | cons p rest ih =>
    intro es h1 h2
    rw [List.foldl_cons]
    refine ih (fun q hq => h1 q (by simp [hq])) ?_
    rw [buildStep_length]
    have := h1 p (by simp)
    omega

theorem foldl_buildStep_no_head {l : List (Nat × T)} :
    ∀ {es : List (Entry T)}, (∀ e ∈ es, ∀ b, e ≠ Entry.VacantHead b) →
      ∀ e ∈ l.foldl buildStep es, ∀ b, e ≠ Entry.VacantHead b := by
  induction l with
  | nil =>
    intro es h
    exact h
  | cons p rest ih =>
    intro es h
    rw [List.foldl_cons]
    refine ih ?_
    intro e he b
    have he1 : e ∈ (if p.1 < es.length then es
        else es ++ List.replicate (p.1 + 1 - es.length)
          (Entry.VacantTail INVALID_INDEX)).set p.1 (Entry.Occupied p.2) := he
    rcases List.mem_or_eq_of_mem_set he1 with h2 | h2
    · by_cases hc : p.1 < es.length
      · rw [if_pos hc] at h2
        exact h e h2 b
      · rw [if_neg hc] at h2
        rcases List.mem_append.1 h2 with h3 | h3
        · exact h e h3 b
        · rw [List.eq_of_mem_replicate h3]
          intro hx
          cases hx
    · rw [h2]
      intro hx
      cases hx

theorem mem_vtRuns {es : List (Entry T)} {p : Nat × Nat} :
    p ∈ vtRuns es ↔ p.2 = p.1 ∧ p.1 < es.length ∧ isVacantAt es p.1 = true := by
  rw [vtRuns, List.mem_filterMap]
  constructor
  · rintro ⟨j, hj, hf⟩
    rw [List.mem_range] at hj
    by_cases hv : isVacantAt es j = true
    · rw [if_pos hv] at hf
      injection hf with hf
      rw [← hf]
      exact ⟨rfl, hj, hv⟩
    · rw [if_neg hv] at hf
      cases hf
  · rintro ⟨h1, h2, h3⟩
    refine ⟨p.1, List.mem_range.2 h2, ?_⟩
    rw [if_pos h3, show (p.1, p.1) = p from Prod.ext rfl h1.symm]

theorem EntriesInv_vtRuns {es : List (Entry T)}
    (hnh : ∀ e ∈ es, ∀ b, e ≠ Entry.VacantHead b) :
    EntriesInv es (vtRuns es) := by
  have htail : ∀ j, j < es.length → isVacantAt es j = true → isTailAt es j = true := by
    intro j hj hv
    rw [isVacantAt] at hv
    rcases hg : es[j]? with _ | e
    · rw [hg] at hv
      cases hv
    · rcases e with v | b | nx
      · rw [hg] at hv
        cases hv
      · exfalso
        rcases List.getElem?_eq_some_iff.1 hg with ⟨hlt, hget⟩
        have hmem : Entry.VacantHead b ∈ es := by
          rw [← hget]
          exact List.getElem_mem hlt
        exact hnh _ hmem b rfl
      · rw [isTailAt, hg]
  refine ⟨?_, ?_, ?_⟩
  · intro p hp
    obtain ⟨h1, h2, h3⟩ := mem_vtRuns.1 hp
    refine ⟨by omega, by omega, ?_, ?_, ?_⟩
    · intro j hj hj1 hj2
      rw [show j = p.1 from by omega]
      exact h3
    · rw [h1]
      exact htail p.1 h2 h3
    · intro hlt
      omega
  · rw [vtRuns]
    refine List.Pairwise.filterMap _ ?_ (List.pairwise_lt_range es.length)
    intro a b hab c hc d hd
    by_cases hva : isVacantAt es a = true
    · rw [if_pos hva] at hc
      by_cases hvb : isVacantAt es b = true
      · rw [if_pos hvb] at hd
        simp only [Option.mem_some_iff] at hc hd
        rw [← hc, ← hd]
        exact Or.inl hab
      · rw [if_neg hvb] at hd
        simp at hd
    · rw [if_neg hva] at hc
      simp at hc
  · intro j hj
    constructor
    · intro hv
      exact ⟨(j, j), mem_vtRuns.2 ⟨rfl, hj, hv⟩, Nat.le_refl j, Nat.le_refl j⟩
    · rintro ⟨p, hp, h1, h2⟩
      obtain ⟨hq1, hq2, hq3⟩ := mem_vtRuns.1 hp
      rw [show j = p.1 from by omega]
      exact hq3

theorem find?_key_of_sorted {m : List (Nat × T)}
    (hs : m.Pairwise (fun p q => p.1 < q.1)) {k : Nat} {v : T} (hm : (k, v) ∈ m) :
    m.find? (fun p => p.1 == k) = some (k, v) := by
  induction m with
  | nil => cases hm
  | cons q rest ih =>
    rcases List.mem_cons.1 hm with h | h
    · rw [← h]
      exact List.find?_cons_of_pos _ (by simp)
    · have hlt : q.1 < k := (List.pairwise_cons.1 hs).1 (k, v) h
      rw [List.find?_cons_of_neg _ (by simp; omega)]
      exact ih (List.pairwise_cons.1 hs).2 h

theorem mapLookup_none_of_forall {m : List (Nat × T)} {k : Nat}
    (h : ∀ p ∈ m, p.1 ≠ k) : mapLookup m k = none := by
  rw [mapLookup, List.find?_eq_none.2 (fun p hp => by simpa using h p hp)]
  rfl

theorem mapLookup_occList_eq_none {es : List (Entry T)} {k : Nat}
    (h : ∀ v, es[k]? ≠ some (.Occupied v)) : mapLookup (occList es) k = none := by
  apply mapLookup_none_of_forall
  rintro ⟨k1, v1⟩ hp hk
  have hk2 : k1 = k := hk
  obtain ⟨j, hj1, hj2⟩ := mem_occListFrom.1 hp
  refine h v1 ?_
  rw [show k = j from by omega]
  exact hj1

theorem get_eq_mapLookup (s : SlabMap T) (k : Nat) :
    s.get k = mapLookup (occList s.entries) k := by
  rcases hg : s.entries[k]? with _ | e
  · rw [SlabMap.get, hg,
      mapLookup_occList_eq_none (fun v hv => by rw [hg] at hv; simp at hv)]
  · rcases e with v | b | nx
    · rw [SlabMap.get, hg, mapLookup, occList,
        find?_key_of_sorted (occListFrom_sorted s.entries 0)
          (mem_occListFrom.2 ⟨k, hg, by omega⟩)]
      rfl
    · rw [SlabMap.get, hg,
        mapLookup_occList_eq_none (fun v hv => by rw [hg] at hv; simp at hv)]
    · rw [SlabMap.get, hg,
        mapLookup_occList_eq_none (fun v hv => by rw [hg] at hv; simp at hv)]

theorem mapLookup_cons (q : Nat × T) (rest : List (Nat × T)) (k1 : Nat) :
    mapLookup (q :: rest) k1 = if q.1 = k1 then some q.2 else mapLookup rest k1 := by
  rw [mapLookup]
  by_cases h : q.1 = k1
  · rw [List.find?_cons_of_pos _ (by simp [h]), if_pos h]
    rfl
  · rw [List.find?_cons_of_neg _ (by simp [h]), if_neg h]
    rfl

theorem mapLookup_mapInsert (m : List (Nat × T)) (k : Nat) (v : T) (k1 : Nat) :
    mapLookup (mapInsert m k v) k1 = if k1 = k then some v else mapLookup m k1 := by
  induction m with
  | nil =>
    rw [mapInsert, mapLookup_cons]
    by_cases h : k1 = k
    · rw [if_pos (show (k, v).1 = k1 from h.symm), if_pos h]
    · rw [if_neg (show ¬((k, v).1 = k1) from fun hc => h hc.symm), if_neg h]
  | cons q rest ih =>
    rw [mapInsert]
    by_cases h1 : k < q.1
    · rw [if_pos h1, mapLookup_cons]
      by_cases h : k1 = k
      · rw [if_pos (show (k, v).1 = k1 from h.symm), if_pos h]
      · rw [if_neg (show ¬((k, v).1 = k1) from fun hc => h hc.symm), if_neg h]
    · rw [if_neg h1]
      by_cases h2 : k = q.1
      · rw [if_pos h2, mapLookup_cons]
        by_cases h : k1 = k
        · rw [if_pos (show (k, v).1 = k1 from h.symm), if_pos h]
        · rw [if_neg (show ¬((k, v).1 = k1) from fun hc => h hc.symm), if_neg h,
            mapLookup_cons,
            if_neg (show ¬(q.1 = k1) from fun hc => h (by rw [← hc, ← h2]))]
      · rw [if_neg h2, mapLookup_cons, ih, mapLookup_cons]
        by_cases h3 : q.1 = k1
        · have hne : ¬(k1 = k) := fun hc => h2 (by rw [← hc, h3])
          rw [if_pos h3, if_neg hne, if_pos h3]
        · by_cases h : k1 = k
          · rw [if_neg h3, if_pos h, if_pos h]
          · rw [if_neg h3, if_neg h, if_neg h, if_neg h3]

theorem occList_foldl_buildStep (l : List (Nat × T)) :
    ∀ (es : List (Entry T)), occList (l.foldl buildStep es) =
      l.foldl (fun m p => mapInsert m p.1 p.2) (occList es) := by
  induction l with
  | nil =>
    intro es
    rfl
  | cons p rest ih =>
    intro es
    rw [List.foldl_cons, List.foldl_cons, ih, occList_buildStep]

theorem mapOfList_concat (l : List (Nat × T)) (p : Nat × T) :
    mapOfList (l ++ [p]) = mapInsert (mapOfList l) p.1 p.2 := by
  rw [mapOfList, List.foldl_append, List.foldl_cons, List.foldl_nil, mapOfList]

theorem lookupLast_concat (l : List (Nat × T)) (p : Nat × T) (k : Nat) :
    lookupLast (l ++ [p]) k = if k = p.1 then some p.2 else lookupLast l k := by
  rw [lookupLast, List.reverse_append]
  simp only [List.reverse_cons, List.reverse_nil, List.nil_append, List.singleton_append]
  by_cases h : k = p.1
  · rw [List.find?_cons_of_pos _ (by simp [h]), if_pos h]
    rfl
  · rw [List.find?_cons_of_neg _ (by simp only [beq_iff_eq]; exact fun hc => h hc.symm),
      if_neg h, lookupLast]

theorem mapLookup_mapOfList (l : List (Nat × T)) (k : Nat) :
    mapLookup (mapOfList l) k = lookupLast l k := by
  induction l using List.reverseRecOn with
  | nil => rfl
  | append_singleton xs p ih =>
    rw [mapOfList_concat, mapLookup_mapInsert, lookupLast_concat, ih]

theorem mem_keys_mapInsert {m : List (Nat × T)} {k : Nat} {v : T} {k1 : Nat} :
    k1 ∈ (mapInsert m k v).map Prod.fst ↔ k1 = k ∨ k1 ∈ m.map Prod.fst := by
  induction m with
  | nil => simp [mapInsert]
  | cons q rest ih =>
    rw [mapInsert]
    by_cases h1 : k < q.1
    · rw [if_pos h1]
      simp only [List.map_cons, List.mem_cons]
    · rw [if_neg h1]
      by_cases h2 : k = q.1
      · rw [if_pos h2]
        simp only [List.map_cons, List.mem_cons, ← h2]
        tauto
      · rw [if_neg h2]
        simp only [List.map_cons, List.mem_cons, ih]
        tauto

theorem mem_keys_mapOfList {l : List (Nat × T)} {k1 : Nat} :
    k1 ∈ (mapOfList l).map Prod.fst ↔ k1 ∈ l.map Prod.fst := by
  suffices h : ∀ (acc : List (Nat × T)),
      k1 ∈ (l.foldl (fun m p => mapInsert m p.1 p.2) acc).map Prod.fst ↔
        k1 ∈ acc.map Prod.fst ∨ k1 ∈ l.map Prod.fst by
    simpa [mapOfList] using h []
  induction l with
  | nil =>
    intro acc
    simp
  | cons p rest ih =>
    intro acc
    rw [List.foldl_cons, ih (mapInsert acc p.1 p.2)]
    simp only [List.map_cons, List.mem_cons, mem_keys_mapInsert]
    tauto

theorem length_eq_card_keys {m : List (Nat × T)}
    (hs : m.Pairwise (fun p q => p.1 < q.1)) :
    m.length = (m.map Prod.fst).toFinset.card := by
  have hnd : (m.map Prod.fst).Nodup := by
    show (m.map Prod.fst).Pairwise (fun a b => a ≠ b)
    rw [List.pairwise_map]
    exact hs.imp (fun h => Nat.ne_of_lt h)
  rw [List.toFinset_card_of_nodup hnd, List.length_map]

/-- C10: constructing a `SlabMap` from a key/value list yields a container in
which `get k` is the value of the last pair with key `k` (`none` if no pair
has key `k`), `len` is the number of distinct keys, and the state is in
compacted form with `churn = 0`. -/
theorem c10_from_iter {l : List (Nat × T)} (hkey : ∀ p ∈ l, p.1 + 1 < USIZE)
    (c : Nat) :
    (∀ k, (SlabMap.from_iter_with_capacity l c).get k = lookupLast l k) ∧
    (SlabMap.from_iter_with_capacity l c).len = (l.map Prod.fst).toFinset.card ∧
    (∃ rs1, CanonicalWith (SlabMap.from_iter_with_capacity l c) rs1) ∧
    (SlabMap.from_iter_with_capacity l c).non_optimized_count = 0 := by
  set raw : SlabMap T :=
    { entries := l.foldl buildStep [],
      next_vacant_idx := INVALID_INDEX,
      len := USIZE - 1,
      non_optimized_count := USIZE - 1 } with hraw
  have hE2 : EntriesInv raw.entries (vtRuns raw.entries) := by
    show EntriesInv (l.foldl buildStep []) (vtRuns (l.foldl buildStep []))
    exact EntriesInv_vtRuns
      (foldl_buildStep_no_head (fun e he => absurd he (List.not_mem_nil e)))
  have hU2 : raw.entries.length < USIZE := by
    show (l.foldl buildStep []).length < USIZE
    exact foldl_buildStep_length hkey (by norm_num [USIZE])
  obtain ⟨rs1, hcan, hocc, hnoc⟩ := merge_vacants_spec hE2 hU2 (fun _ v => (true, v))
  have hshow : SlabMap.from_iter_with_capacity l c =
      raw.merge_vacants (fun _ v => (true, v)) := rfl
  rw [hshow]
  have hocc2 : occList (raw.merge_vacants fun _ v => (true, v)).entries =
      mapOfList l := by
    rw [hocc, mapRetain_id]
    exact occList_foldl_buildStep l []
  refine ⟨?_, ?_, ⟨rs1, hcan⟩, hnoc⟩
  · intro k
    rw [get_eq_mapLookup, hocc2, mapLookup_mapOfList]
  · rw [hcan.1.2.2.1,
      show countOcc (raw.merge_vacants fun _ v => (true, v)).entries =
        (occList (raw.merge_vacants fun _ v => (true, v)).entries).length from
        (length_occListFrom _ 0).symm,
      hocc2]
    have hsorted : (mapOfList l).Pairwise (fun p q => p.1 < q.1) := by
      rw [← hocc2]
      exact occListFrom_sorted _ 0
    rw [length_eq_card_keys hsorted]
    congr 1
    ext a
    rw [List.mem_toFinset, List.mem_toFinset]
    exact mem_keys_mapOfList

theorem c10_from_iter_witness :
    (SlabMap.from_iter_with_capacity
      ([(3, 30), (1, 10), (3, 33)] : List (Nat × Nat)) 0).get 3 = some 33 ∧
    (SlabMap.from_iter_with_capacity
      ([(3, 30), (1, 10), (3, 33)] : List (Nat × Nat)) 0).get 0 =
      (none : Option Nat) ∧
    (SlabMap.from_iter_with_capacity
      ([(3, 30), (1, 10), (3, 33)] : List (Nat × Nat)) 0).len =
      (([(3, 30), (1, 10), (3, 33)] : List (Nat × Nat)).map Prod.fst).toFinset.card ∧
    (SlabMap.from_iter_with_capacity
      ([(3, 30), (1, 10), (3, 33)] : List (Nat × Nat)) 0).non_optimized_count = 0 :=
  ⟨((@c10_from_iter Nat [(3, 30), (1, 10), (3, 33)] (by decide) 0).1 3).trans
      (by decide),
    ((@c10_from_iter Nat [(3, 30), (1, 10), (3, 33)] (by decide) 0).1 0).trans
      (by decide),
    (@c10_from_iter Nat [(3, 30), (1, 10), (3, 33)] (by decide) 0).2.1,
    (@c10_from_iter Nat [(3, 30), (1, 10), (3, 33)] (by decide) 0).2.2.2⟩

end SlabMapModel
